import Mathlib

/-!
# simmer: the process kernel (`src/process.cpp`)

A shallow embedding of the process / arrival / batch kernel of the simmer
discrete-event simulator, and theorems about it.

Conventions of the embedding.

* Simulated time, delays and durations are C++ `double`s in the source. They are
  embedded as exact integers (`Time`): no rounding, no NaN, no infinity. The
  one place where `process.cpp` accumulates doubles, the loop of
  `Generator::run`, is embedded over an arbitrary arithmetic (`DoubleOps`), of
  which the exact one is an instance.
* The counter of a generator is a C++ `int`: it is embedded as an integer whose
  increment wraps at 32 bits (`nextCount`).
* Undefined behaviour is `none` where a method cannot go on at all (a read out
  of bounds, a call through a null pointer) and the mark `undefined` where the
  calls made before it matter (`Arrival::terminate`).
* A C++ pointer is embedded as a handle (`Ref`). Objects that live outside
  `process.cpp` (activities, resources) are reached through lookup tables held
  by `Sim`.
* Every call that leaves the object (`sim->schedule`, `sim->record_end`,
  `resource->erase`, the manager's setter, ...) is appended, in program order,
  to a list of `Call`s returned together with the new state of the object.
* The trace output guarded by `sim->verbose` only prints; it is left out.
-/

namespace Simmer

/-- Simulated time and delays (`double` in the source, exact integers here). -/
abbrev Time := Int

/-- An object handle: the embedding of a C++ pointer. -/
abbrev Ref := Nat

/-- Calls that leave the object under consideration, in the order the code issues them. -/
inductive Call where
  /-- The call `sim->schedule(delay, process, priority)`. -/
  | schedule (delay : Time) (process : Ref) (priority : Int)
  /-- The call `sim->unschedule(process)`. -/
  | unschedule (process : Ref)
  /-- The call `sim->register_arrival(arrival)`. -/
  | register_arrival (arrival : Ref)
  /-- The call `sim->unregister_arrival(arrival)`. -/
  | unregister_arrival (arrival : Ref)
  /-- The call `sim->record_end(name, start, activity, finished)`. -/
  | record_end (name : String) (start activity : Time) (finished : Bool)
  /-- The call `sim->record_release(name, start, activity, resource)`. -/
  | record_release (name : String) (start activity : Time) (resource : String)
  /-- The call `Rcpp::warning` of `Arrival::terminate`, with the arrival and resource names. -/
  | warning (arrival resource : String)
  /-- The call `resource->erase(arrival, force)`. -/
  | resource_erase (resource arrival : Ref) (force : Bool)
  /-- The call `activity->run(arrival)`. -/
  | activity_run (activity arrival : Ref)
  /-- The call `set(value)` of a manager, tagged with the parameter it drives. -/
  | set (param : String) (value : Int)
  deriving DecidableEq, Repr

/-- What a method hands back: its return value, the new state of `this`, the calls it made. -/
structure Ret (ρ σ : Type) where
  val : ρ
  self : σ
  calls : List Call
  deriving DecidableEq, Repr

/-! ## Process -/

/-- The fields of `Process`; `id` stands for the `this` pointer. -/
structure Process where
  id : Ref
  name : String
  mon : Int
  priority : Int
  active : Bool
  deriving DecidableEq, Repr

/-- Modelled from the spec: `Process::is_monitored` is defined in the header;
it returns the monitoring level (section 3). -/
def Process.is_monitored (p : Process) : Int := p.mon

/-- `Process::activate(delay)`, lines 5-9. -/
def Process.activate (p : Process) (delay : Time) : Ret Bool Process :=
  { val := true
    self := { p with active := true }
    calls := [Call.schedule delay p.id p.priority] }

/-- `Process::deactivate()`, lines 11-16. -/
def Process.deactivate (p : Process) : Ret Bool Process :=
  if !p.active then { val := false, self := p, calls := [] }
  else
    { val := true
      self := { p with active := false }
      calls := [Call.unschedule p.id] }

/-- One call of the activation interface. -/
inductive Op where
  | activate (delay : Time)
  | deactivate
  deriving DecidableEq, Repr

/-- Apply one call to a process. -/
def Process.applyOp (p : Process) : Op → Ret Bool Process
  | Op.activate d => p.activate d
  | Op.deactivate => p.deactivate

/-- Apply a sequence of calls, first to last: the return values in order, the
final process, and all calls made on the simulator. -/
def Process.applyOps (p : Process) : List Op → Ret (List Bool) Process
  | [] => { val := [], self := p, calls := [] }
  | op :: ops =>
    let r := p.applyOp op
    let rs := Process.applyOps r.self ops
    { val := r.val :: rs.val, self := rs.self, calls := r.calls ++ rs.calls }

/-! ## Data shared by arrivals, generators and managers -/

/-- The timing record `ArrTime`: used for `lifetime` and for the entries of `restime`. -/
structure ArrTime where
  start : Time
  activity : Time
  busy_until : Time
  remaining : Time
  deriving DecidableEq, Repr

/-- The ordering policy `Order` carried by generators and arrivals. -/
structure Order where
  priority : Int
  preemptible : Int
  restart : Bool
  deriving DecidableEq, Repr

/-- Modelled from the spec: `Order::get_restart` is defined in a header; it
tells whether the restart policy allows resumption (section 4.5). -/
def Order.get_restart (o : Order) : Bool := o.restart

/-! ## Generator -/

/-- The C++ type `double` as `Generator::run` uses it: the constant `0` of line
27, the addition of line 34 and the test `x < 0` of line 30. Nothing is assumed
of these operations, so that what is proved of the generator holds of the
floating-point arithmetic of the machine, with its rounding, its infinities
and its NaN, as it does of exact arithmetic. -/
structure DoubleOps (τ : Type) where
  zero : τ
  add : τ → τ → τ
  isNeg : τ → Bool

/-- Exact arithmetic on `Time`, the instance used in examples. -/
def exactOps : DoubleOps Time :=
  { zero := 0, add := fun x y => x + y, isNeg := fun x => decide (x < 0) }

/-- The largest value of a C++ `int` of 32 bits. -/
def INT_MAX : Int := 2147483647

/-- The smallest value of a C++ `int` of 32 bits. -/
def INT_MIN : Int := -2147483648

/-- The value a 32-bit two's-complement `int` holds for the mathematical
result `x`: `x` itself when it is representable, and `x` shifted by a multiple
of `2^32` into the range otherwise. -/
def wrapInt (x : Int) : Int := (x + 2147483648) % 4294967296 - 2147483648

/-- The member `count` after `count++` at line 37. The increment of a C++ `int`
at `INT_MAX` overflows; the embedding gives it the two's-complement result,
`INT_MIN`. -/
def nextCount (count : Int) : Int := wrapInt (count + 1)

/-- The fields of `Generator` read or written by `Generator::run`. The
distribution `dist` is external: what it samples is an argument of `run`. The
counter `count` is a C++ `int`. -/
structure Generator extends Process where
  count : Int
  order : Order
  first_activity : Ref
  deriving DecidableEq, Repr

/-- One evaluation of `new Arrival(sim, arr_name, is_monitored(), order,
first_activity, count)` at line 38: the handle the allocation returned and the
constructor arguments. -/
structure NewArrival where
  ref : Ref
  name : String
  mon : Int
  order : Order
  first_activity : Ref
  count : Int
  deriving DecidableEq, Repr

/-- The calls `Generator::run` makes to the simulator; the delay of `schedule`
is a `double`. -/
inductive GenCall (τ : Type) where
  | register_arrival (arrival : Ref)
  | schedule (delay : τ) (process : Ref) (priority : Int)
  deriving DecidableEq, Repr

/-- A call of the generator in the log of calls used for the other processes,
for delays in exact arithmetic. -/
def GenCall.toCall : GenCall Time → Call
  | GenCall.register_arrival a => Call.register_arrival a
  | GenCall.schedule d p prio => Call.schedule d p prio

/-- State after the `for` loop of `Generator::run`. -/
structure GenLoop (τ : Type) where
  /-- The loop was left through `return` at line 32 (a negative delay was met). -/
  stopped : Bool
  /-- The local variable `delay`. -/
  delay : τ
  /-- The member `count`. -/
  count : Int
  /-- The arrivals constructed, oldest first. -/
  created : List NewArrival
  calls : List (GenCall τ)

/-- The `for` loop of `Generator::run`, lines 29-51, over the delays not yet
read. `i` is the loop index, `delay` the local accumulator, `count` the member
counter; `fa_priority` is `first_activity->priority`; `alloc i` is the handle
returned by the `new` of iteration `i`. -/
def Generator.loop {τ : Type} (ops : DoubleOps τ) (g : Generator) (fa_priority : Int)
    (alloc : Nat → Ref) : List τ → Nat → τ → Int → GenLoop τ
  | [], _, delay, count =>
    { stopped := false, delay := delay, count := count, created := [], calls := [] }
  | d :: ds, i, delay, count =>
    -- if (delays[i] < 0) { active = false; return; }
    if ops.isNeg d then
      { stopped := true, delay := delay, count := count, created := [], calls := [] }
    else
      -- delay += delays[i];
      let delay := ops.add delay d
      -- name + lexical_cast<std::string>(count++)
      let arr_name := g.name ++ toString count
      let count := nextCount count
      let arrival : NewArrival :=
        { ref := alloc i, name := arr_name, mon := g.is_monitored, order := g.order
          first_activity := g.first_activity, count := count }
      let rest := Generator.loop ops g fa_priority alloc ds (i + 1) delay count
      { rest with
        created := arrival :: rest.created
        calls := GenCall.register_arrival arrival.ref ::
          GenCall.schedule delay arrival.ref (if fa_priority ≠ 0 then fa_priority else count) ::
          rest.calls }

/-- What `Generator::run` leaves behind. -/
structure GenRun (τ : Type) where
  self : Generator
  created : List NewArrival
  calls : List (GenCall τ)

/-- `Generator::run()`, lines 23-54. `delays` is the vector returned by
`dist()`, `fa_priority` is `first_activity->priority`. The call `activate(delay)`
of line 53 is `Process::activate`, lines 5-9, with the accumulated `double`. -/
def Generator.run {τ : Type} (ops : DoubleOps τ) (g : Generator) (fa_priority : Int)
    (alloc : Nat → Ref) (delays : List τ) : GenRun τ :=
  -- double delay = 0;
  let r := Generator.loop ops g fa_priority alloc delays 0 ops.zero g.count
  let g1 : Generator := { g with count := r.count }
  if r.stopped then
    { self := { g1 with active := false }, created := r.created, calls := r.calls }
  else
    { self := { g1 with active := true }, created := r.created
      calls := r.calls ++ [GenCall.schedule r.delay g.id g.priority] }

/-- The calls `Generator::run` makes for the first `k` arrivals of a batch of
delays: arrival `j` is registered and then scheduled at the delays up to and
including its own, added one after the other to `delay0` in the order of the
loop; its fallback priority is the counter after `j + 1` increments. -/
def Generator.arrivalCalls {τ : Type} (ops : DoubleOps τ) (fa_priority : Int)
    (alloc : Nat → Ref) (delays : List τ) (i : Nat) (delay0 : τ) (count : Int) (k : Nat) :
    List (GenCall τ) :=
  (List.range k).flatMap fun j =>
    [GenCall.register_arrival (alloc (i + j)),
     GenCall.schedule ((delays.take (j + 1)).foldl ops.add delay0) (alloc (i + j))
       (if fa_priority ≠ 0 then fa_priority else nextCount^[j + 1] count)]

/-- Index of the first entry of a list of delays for which the test `x < 0`
holds, its length if there is none. -/
def firstNegative {τ : Type} (ops : DoubleOps τ) (delays : List τ) : Nat :=
  delays.findIdx ops.isNeg


/-! ## Manager -/

/-- The fields of `Manager`. -/
structure Manager extends Process where
  param : String
  duration : List Time
  value : List Int
  period : Int
  index : Nat
  deriving DecidableEq, Repr

/-- Modelled from the spec: `Manager::activate` is defined in the header, which
is not among the sources. Section 4.3 has the manager "reactivate after the next
scheduled duration": the override ignores its argument and calls
`Process::activate(duration[index])`. The result is `none` when `index` is out
of the bounds of `duration` (the read is undefined in C++). -/
def Manager.activate (m : Manager) : Option (Ret Bool Manager) :=
  match m.duration[m.index]? with
  | none => none
  | some d =>
    let r := m.toProcess.activate d
    some { val := r.val, self := { m with toProcess := r.self }, calls := r.calls }

/-- `Manager::run()`, lines 56-74. The result is `none` when `value[index]` or
the `duration[index]` of the reactivation is read out of bounds. -/
def Manager.run (m : Manager) : Option (Ret Unit Manager) :=
  match m.value[m.index]? with
  | none => none
  | some v =>
    -- set(value[index]);
    let calls := [Call.set m.param v]
    -- index++;
    let m1 : Manager := { m with index := m.index + 1 }
    if m1.index = m1.duration.length then
      if m1.period < 0 then
        -- goto end;
        some { val := (), self := m1, calls := calls }
      else
        -- index = 1; activate();
        let m2 : Manager := { m1 with index := 1 }
        (m2.activate).map fun r => { val := (), self := r.self, calls := calls ++ r.calls }
    else
      -- activate();
      (m1.activate).map fun r => { val := (), self := r.self, calls := calls ++ r.calls }

/-- The event outstanding for a process after it made `calls` at time `now`:
`schedule` leaves an event at `now + delay`, `unschedule` removes it. -/
def pendingAfter (now : Time) : Option Time → List Call → Option Time
  | pending, [] => pending
  | _, Call.schedule d _ _ :: cs => pendingAfter now (some (now + d)) cs
  | _, Call.unschedule _ :: cs => pendingAfter now none cs
  | pending, _ :: cs => pendingAfter now pending cs

/-- The setter calls among `calls`, stamped with the simulated time `now`. -/
def setterCalls (now : Time) : List Call → List (Time × Int)
  | [] => []
  | Call.set _ v :: cs => (now, v) :: setterCalls now cs
  | _ :: cs => setterCalls now cs

/-- A simulation that holds one manager: the clock, the manager, the time of
its outstanding event if it has one, and the setter calls made so far. -/
structure MgrSim where
  now : Time
  mgr : Manager
  pending : Option Time
  applied : List (Time × Int)
  deriving DecidableEq, Repr

/-- Modelled from the spec: the event scheduler is an external collaborator
(sections 2 and 6): an event scheduled with `delay` fires at `now + delay`, and
firing it advances the clock to that time and invokes `run` of its process.
`Manager.start` is the first activation of the manager at time `now`. -/
def Manager.start (m : Manager) (now : Time) : Option MgrSim :=
  (m.activate).map fun r =>
    { now := now, mgr := r.self, pending := pendingAfter now none r.calls, applied := [] }

/-- Modelled from the spec: one turn of the event loop for a simulation holding
one manager. With no event outstanding nothing happens; otherwise the clock
moves to the time of the event, the event is consumed and `Manager::run` runs. -/
def MgrSim.step (s : MgrSim) : Option MgrSim :=
  match s.pending with
  | none => some s
  | some t =>
    (s.mgr.run).map fun r =>
      { now := t, mgr := r.self, pending := pendingAfter t none r.calls
        applied := s.applied ++ setterCalls t r.calls }

/-- The state after `n` turns of the event loop. -/
def MgrSim.steps : Nat → MgrSim → Option MgrSim
  | 0, s => some s
  | n + 1, s => (s.step).bind (MgrSim.steps n)

/-- The manager is activated at time 0 and the event loop makes `n` turns. -/
def Manager.simulate (m : Manager) (n : Nat) : Option MgrSim :=
  (m.start 0).bind (MgrSim.steps n)

/-- The index `Manager::run` moves to from `j` when the period is not negative
and `duration` has `len` entries. -/
def Manager.nextIndex (len j : Nat) : Nat := if j + 1 = len then 1 else j + 1

/-- The index of the value applied by the `k`-th run (counted from 0) of a
periodic manager with `len` values: 0, 1, ..., len-1, 1, ..., len-1, 1, ... -/
def Manager.cycleIndex (len k : Nat) : Nat := if k = 0 then 0 else 1 + (k - 1) % (len - 1)

/-- The manager of the worked example: values 10, 20, 30 with durations 0, 5, 5. -/
def exampleManager (period : Int) : Manager :=
  { id := 1, name := "mgr", mon := 0, priority := 0, active := false
    param := "capacity", duration := [0, 5, 5], value := [10, 20, 30]
    period := period, index := 0 }

/-! ## Arrival -/

/-- Modelled from the spec: the default-constructed `ArrTime` (its constructor
is in the header). A start that was never recorded is negative ("no record"),
the accumulated activity time and the remaining time start at zero. -/
def ArrTime.default : ArrTime := { start := -1, activity := 0, busy_until := -1, remaining := 0 }

/-- The map `ResTime` from resource names to timing records, in iteration order. -/
abbrev ResTime := List (String × ArrTime)

/-- The value of `restime[name]`: the stored record, the default-constructed one
when the key is absent. -/
def ResTime.at (m : ResTime) (name : String) : ArrTime :=
  match m.lookup name with
  | some t => t
  | none => ArrTime.default

/-- The effect of evaluating `restime[name]` on the map: `operator[]` inserts a
default-constructed record when the key is absent. -/
def ResTime.touch (m : ResTime) (name : String) : ResTime :=
  match m.lookup name with
  | some _ => m
  | none => m ++ [(name, ArrTime.default)]

/-- The fields of `Arrival` used by `process.cpp`. `resources` is the multiset
`ResMSet` in iteration order, so that `resources.begin()` is the head.

The member `batch` is not a field. The batches that enclose an arrival are
passed along with it as a list, innermost first: `batch` points to the head of
that list and is null when the list is empty. An assignment `batch = NULL`
shows up as `detached := true` in the result of the method that makes it. -/
structure Arrival extends Process where
  order : Order
  activity : Option Ref
  lifetime : ArrTime
  resources : List Ref
  restime : ResTime
  timer : Option Ref
  deriving DecidableEq, Repr

/-- An activity, as far as `process.cpp` looks at it: its fields, its
neighbours `get_next()` and `get_prev()`, and the value `run(arrival)` returns.
What the activity itself does to the arrival or to the simulator is outside
`process.cpp` and is not part of the embedding. -/
structure Activity where
  name : String
  priority : Int
  next : Option Ref
  prev : Option Ref
  run : Arrival → Time

/-- Modelled from the spec: `Resource::erase` is not among the sources. A
resource is given by its name, the boolean its `erase(arrival, force)` returns
(section 6) and whether that call releases the arrival, that is, calls back
`arrival->unregister_entity(this)` (section 3: membership ends with
`unregister_entity`). -/
structure Resource where
  name : String
  erase_result : Bool
  erase_unregisters : Bool
  deriving DecidableEq, Repr

/-- The simulator as seen from a process: the clock `now()` and the objects
behind activity and resource pointers. -/
structure Sim where
  now : Time
  activity : Ref → Activity
  resource : Ref → Resource

/-- The status constants `REJECT`, `ENQUEUE` and `BLOCK`, defined in a header
that is not among the sources: they are parameters of the embedding. -/
structure Status where
  REJECT : Time
  ENQUEUE : Time
  BLOCK : Time
  deriving DecidableEq, Repr

/-- What a method of an arrival leaves behind: the object, the calls made, and
whether the method ended with `delete this`. `undefined` says that the method
ran into undefined behaviour: `self` and `calls` are then what had happened
before that point, and nothing is known of what follows it. -/
structure ArrOut where
  self : Arrival
  calls : List Call
  deleted : Bool
  undefined : Bool := false
  deriving DecidableEq, Repr

/-- Modelled from the spec: `set_busy` is defined in the header; section 4.5
"sets busy-until". -/
def Arrival.set_busy (a : Arrival) (value : Time) : Arrival :=
  { a with lifetime := { a.lifetime with busy_until := value } }

/-- Modelled from the spec: `set_remaining` is defined in the header; section
4.5 "clears remaining to zero" is `set_remaining(0)`. -/
def Arrival.set_remaining (a : Arrival) (value : Time) : Arrival :=
  { a with lifetime := { a.lifetime with remaining := value } }

/-- Modelled from the spec: `update_activity` is defined in the header; section
4.5 "accumulate busy time": the value is added to the accumulated activity time. -/
def Arrival.update_activity (a : Arrival) (value : Time) : Arrival :=
  { a with lifetime := { a.lifetime with activity := a.lifetime.activity + value } }

/-- Modelled from the spec: `unset_remaining` is defined in the header; section
4.5 "clear remaining-time bookkeeping": the remaining time is taken back from
the accumulated activity time and cleared. -/
def Arrival.unset_remaining (a : Arrival) : Arrival :=
  (a.update_activity (-a.lifetime.remaining)).set_remaining 0

/-- Modelled from the spec: `unset_busy` is defined in the header; section 4.5
"record accumulated busy time up to now", leaving the "leftover remaining
time": the time from `now` to busy-until becomes the remaining time and
busy-until becomes `now`. -/
def Arrival.unset_busy (a : Arrival) (now : Time) : Arrival :=
  (a.set_remaining (a.lifetime.busy_until - now)).set_busy now

/-- `Arrival::leave(resource)`, lines 148-150. Both reads `restime[resource]`
insert the key when it is absent. -/
def Arrival.leave (a : Arrival) (resource : String) : Ret Unit Arrival :=
  { val := ()
    self := { a with restime := a.restime.touch resource }
    calls := [Call.record_release a.name (a.restime.at resource).start
      (a.restime.at resource).activity resource] }

/-- `Arrival::leave(resource, start, activity)`, lines 152-154. -/
def Arrival.leave3 (a : Arrival) (resource : String) (start activity : Time) : List Call :=
  [Call.record_release a.name start activity resource]

/-- `Arrival::unregister_entity(Resource*)`, lines 212-216. `List.erase` removes
one occurrence of the pointer, as `resources.erase(resources.find(ptr))` does
(and is undefined in C++ when the pointer is not in the multiset). -/
def Arrival.unregister_entity (sim : Sim) (a : Arrival) (ptr : Ref) : Ret Unit Arrival :=
  let l : Ret Unit Arrival :=
    if a.is_monitored ≠ 0 then a.leave (sim.resource ptr).name
    else { val := (), self := a, calls := [] }
  { val := ()
    self := { l.self with resources := l.self.resources.erase ptr }
    calls := l.calls }

/-- Modelled from the spec: the call `ptr->erase(this, force)` on a resource.
It is logged, releases the arrival through `unregister_entity` when the
resource does so, and returns the resource's answer. -/
def Resource.erase (sim : Sim) (ptr : Ref) (force : Bool) (a : Arrival) : Ret Bool Arrival :=
  let u : Ret Unit Arrival :=
    if (sim.resource ptr).erase_unregisters then a.unregister_entity sim ptr
    else { val := (), self := a, calls := [] }
  { val := (sim.resource ptr).erase_result
    self := u.self
    calls := Call.resource_erase ptr a.id force :: u.calls }

/-- The `foreach_` loop of `Arrival::terminate`, lines 157-160. The loop walks
the multiset `resources` itself with an iterator; the list argument is what the
iterator has still to visit, the element it stands on first. When the call
`itr->erase(this, true)` comes back with the multiset changed (the resource has
called `unregister_entity`, line 215, which erases an element equal to the one
the iterator stands on), the iterator is invalid and advancing it is undefined:
the loop ends there with `val = true`. As long as the multiset is unchanged the
elements still to visit are the rest of the list. -/
def Arrival.terminate_loop (sim : Sim) : List Ref → Arrival → Ret Bool Arrival
  | [], a => { val := false, self := a, calls := [] }
  | r :: rs, a =>
    let e := Resource.erase sim r true a
    let calls := Call.warning a.name (sim.resource r).name :: e.calls
    if e.self.resources ≠ a.resources then
      { val := true, self := e.self, calls := calls }
    else
      let rest := Arrival.terminate_loop sim rs e.self
      { val := rest.val, self := rest.self, calls := calls ++ rest.calls }

/-- `Arrival::terminate(finished)`, lines 156-165. `is_batched` is the outcome
of `dynamic_cast<Batched*>(this)`. When the loop of lines 157-160 ran into
undefined behaviour nothing of lines 161-164 is known to happen: the outcome is
what the loop had done, marked `undefined`. -/
def Arrival.terminate (sim : Sim) (a : Arrival) (finished : Bool) (is_batched : Bool) : ArrOut :=
  let l := Arrival.terminate_loop sim a.resources a
  if l.val then
    { self := l.self, calls := l.calls, deleted := false, undefined := true }
  else
    let a1 := l.self.unset_remaining
    let rec_end :=
      if a1.is_monitored ≥ 1 ∧ ¬ is_batched then
        [Call.record_end a1.name a1.lifetime.start a1.lifetime.activity finished]
      else []
    { self := a1, calls := l.calls ++ rec_end, deleted := true }

/-- The arrival at the moment `activity->run(this)` is called in `Arrival::run`:
lines 98-99 (the first run records the start time) and line 109. -/
def Arrival.before_activity (sim : Sim) (a : Arrival) : Arrival :=
  let a1 : Arrival :=
    if a.lifetime.start < 0 then { a with lifetime := { a.lifetime with start := sim.now } }
    else a
  { a1 with active := false }

/-- `Arrival::run()`, lines 93-129, for an object whose dynamic type is
`Arrival` (the virtual call at line 126 is then `Arrival::terminate`). -/
def Arrival.run (st : Status) (sim : Sim) (a : Arrival) : ArrOut :=
  match a.activity with
  | none =>
    -- finish: terminate(true);
    a.terminate sim true false
  | some act =>
    let a1 := a.before_activity sim
    -- delay = activity->run(this);
    let delay := (sim.activity act).run a1
    let calls := [Call.activity_run act a1.id]
    if delay = st.REJECT then
      { self := a1, calls := calls, deleted := false }
    else
      -- activity = activity->get_next();
      let a2 : Arrival := { a1 with activity := (sim.activity act).next }
      if delay = st.ENQUEUE then
        { self := a2, calls := calls, deleted := false }
      else
        let a3 : Arrival := { a2 with active := true }
        let a4 : Arrival :=
          if delay ≠ st.BLOCK then (a3.set_busy (sim.now + delay)).update_activity delay
          else a3
        let priority :=
          match a4.activity with
          | some n => (sim.activity n).priority
          | none => a4.priority
        { self := a4, calls := calls ++ [Call.schedule delay a4.id priority], deleted := false }

/-- `Process::activate` called on an arrival. -/
def Arrival.activate (a : Arrival) (delay : Time) : Ret Bool Arrival :=
  let r := a.toProcess.activate delay
  { val := r.val, self := { a with toProcess := r.self }, calls := r.calls }

/-- `Process::deactivate` called on an arrival. -/
def Arrival.deactivate (a : Arrival) : Ret Bool Arrival :=
  let r := a.toProcess.deactivate
  { val := r.val, self := { a with toProcess := r.self }, calls := r.calls }

/-- The loop `while (resources.begin() != resources.end())
(*resources.begin())->erase(this);` of lines 179-180, 248-249 and 257-258. The
value is the disjunction of the answers, as accumulated by `ret |= ...` at line
180. The loop runs for as long as resources are held: `fuel` bounds the number
of iterations and the result is `none` when it does not suffice. -/
def Arrival.erase_all (sim : Sim) : Nat → Arrival → Option (Ret Bool Arrival)
  | 0, a =>
    match a.resources with
    | [] => some { val := false, self := a, calls := [] }
    | _ :: _ => none
  | fuel + 1, a =>
    match a.resources with
    | [] => some { val := false, self := a, calls := [] }
    | r :: _ =>
      let e := Resource.erase sim r false a
      (Arrival.erase_all sim fuel e.self).map fun rest =>
        { val := e.val || rest.val, self := rest.self, calls := e.calls ++ rest.calls }

/-! ## Batched -/

/-- The fields of `Batched`: an arrival with the list of its children and the
permanent flag. -/
structure Batched extends Arrival where
  arrivals : List Ref
  permanent : Bool
  deriving DecidableEq, Repr

/-- Modelled from the spec: `Batched::is_permanent` is defined in the header;
it returns the permanent flag (section 3). -/
def Batched.is_permanent (b : Batched) : Bool := b.permanent

/-- `Batched::report(arrival)`, lines 265-269. -/
def Batched.report (sim : Sim) (b : Batched) (arrival : Arrival) : List Call :=
  b.restime.flatMap fun itr =>
    arrival.leave3 itr.1 itr.2.start (itr.2.activity - b.lifetime.busy_until + sim.now)

/-- The test `batch && batch->is_permanent()` for an object enclosed by the
batches of the list. -/
def parentPermanent : List Batched → Bool
  | [] => false
  | p :: _ => p.is_permanent

/-- A batch after `Batched::erase`: the object, whether its member `batch` was
set to null, and whether it was destroyed (`delete this`). -/
structure BatchOut where
  self : Batched
  detached : Bool
  deleted : Bool
  deriving DecidableEq, Repr

/-- What `Batched::erase` leaves behind: the batch it was called on followed by
its former ancestors, innermost first; whether the `batch` member of the erased
child was set to null; the calls made. -/
structure EraseOut where
  chain : List BatchOut
  arrival_detached : Bool
  calls : List Call
  deriving DecidableEq, Repr

/-- A batch that a call did not touch. -/
def BatchOut.untouched (b : Batched) : BatchOut := { self := b, detached := false, deleted := false }

/-- Lines 176-178, 245-247 and 254-256: `if (lifetime.busy_until > sim->now())
unset_busy(sim->now()); unset_remaining();`. -/
def Arrival.unwind (sim : Sim) (a : Arrival) : Arrival :=
  let a1 := if a.lifetime.busy_until > sim.now then a.unset_busy sim.now else a
  a1.unset_remaining

/-- `Batched::erase(arrival)`, lines 232-263, called on the head of the list,
whose ancestors are the tail. `none`: the call goes through a null pointer
(line 253 with no parent batch, or an empty list), or a release loop ran out of
`fuel`.

Line 261, `arrival->unregister_entity(this)` with a `Batched*` argument, is
modelled from the spec: the overload is defined in the header and sets the
child's `batch` to null (section 4.6, "unregister the child from this batch"). -/
def Batched.erase (fuel : Nat) (sim : Sim) : List Batched → Arrival → Option EraseOut
  | [], _ => none
  | b :: ancestors, arrival =>
    -- bool del = activity;
    let del := b.activity.isSome
    -- lines 260-262
    let finish (b1 : Batched) (del detached : Bool) : BatchOut :=
      { self := { b1 with arrivals := b1.arrivals.filter fun c => c ≠ arrival.id }
        detached := detached, deleted := del }
    if b.arrivals.length > 1 ∨ parentPermanent ancestors = true then
      let calls :=
        if arrival.is_monitored ≠ 0 then (b :: ancestors).flatMap fun up => up.report sim arrival
        else []
      some { chain := finish b false false :: ancestors.map BatchOut.untouched
             arrival_detached := true, calls := calls }
    else if b.arrivals.length = 1 ∧ ancestors.isEmpty = true then
      -- bool ret = !activity;
      let ret := b.activity.isNone
      match Arrival.erase_all sim fuel (b.toArrival.unwind sim) with
      | none => none
      | some l =>
        let d : Ret Bool Arrival :=
          if !ret then l.self.deactivate else { val := false, self := l.self, calls := [] }
        some { chain := [finish { b with toArrival := d.self } del false]
               arrival_detached := true, calls := l.calls ++ d.calls }
    else
      -- batch->erase(this);
      match Batched.erase fuel sim ancestors b.toArrival with
      | none => none
      | some up =>
        match Arrival.erase_all sim fuel (b.toArrival.unwind sim) with
        | none => none
        | some l =>
          some { chain := finish { b with toArrival := l.self } del up.arrival_detached :: up.chain
                 arrival_detached := true, calls := up.calls ++ l.calls }

/-- Lines 181-182 of `Arrival::renege`: `if (!ret) deactivate();`. The value is
what `deactivate()` returned, `none` when it was not called. -/
def Arrival.renege_deactivate (a : Arrival) (ret : Bool) : Ret (Option Bool) Arrival :=
  if !ret then
    { val := some a.deactivate.val, self := a.deactivate.self, calls := a.deactivate.calls }
  else { val := none, self := a, calls := [] }

/-- Lines 183-186 of `Arrival::renege`: with a `next` activity the arrival moves
to it and is activated, otherwise it is terminated with `finished = false`. The
second component is the argument of `terminate`, `none` when it was not called.
`activate()` is `Process::activate` with its default delay, modelled from the
spec (section 4.5, "zero-delay continuation"). -/
def Arrival.renege_continue (sim : Sim) (a : Arrival) (next : Option Ref) :
    ArrOut × Option Bool :=
  match next with
  | some n =>
    let act := ({ a with activity := some n } : Arrival).activate 0
    ({ self := act.self, calls := act.calls, deleted := false }, none)
  | none => (a.terminate sim false false, some false)

/-- What `Arrival::renege` leaves behind: the arrival, whether its `batch` was
set to null, the batches that enclosed it, the calls made, whether the arrival
was destroyed, the value returned by `deactivate()` at line 182 (`none` when
the call was skipped) and the argument of `terminate` at line 186 (`none` when
it was not called). `undefined` is the mark of `ArrOut`, taken over from
`terminate`. -/
structure RenegeOut where
  self : Arrival
  detached : Bool
  batches : List BatchOut
  calls : List Call
  deleted : Bool
  deactivated : Option Bool
  finished : Option Bool
  undefined : Bool := false
  deriving DecidableEq, Repr

/-- `Arrival::renege(next)`, lines 167-187, for an object whose dynamic type is
`Arrival`, enclosed by the batches `chain`. `none`: `Batched::erase` or the
release loop did not return. -/
def Arrival.renege (fuel : Nat) (sim : Sim) (a : Arrival) (chain : List Batched)
    (next : Option Ref) : Option RenegeOut :=
  -- timer = NULL;
  let a0 : Arrival := { a with timer := none }
  if parentPermanent chain then
    some { self := a0, detached := false, batches := chain.map BatchOut.untouched, calls := []
           deleted := false, deactivated := none, finished := none }
  else
    let erased : Option EraseOut :=
      match chain with
      | [] => some { chain := [], arrival_detached := false, calls := [] }
      | _ :: _ => Batched.erase fuel sim chain a0
    match erased with
    | none => none
    | some e =>
      -- ret = true when the arrival was in a batch
      let ret0 := !chain.isEmpty
      match Arrival.erase_all sim fuel (a0.unwind sim) with
      | none => none
      | some l =>
        let ret := ret0 || l.val
        let d := l.self.renege_deactivate ret
        let c := d.self.renege_continue sim next
        some { self := c.1.self, detached := e.arrival_detached, batches := e.chain
               calls := e.calls ++ l.calls ++ d.calls ++ c.1.calls
               deleted := c.1.deleted, deactivated := d.val, finished := c.2
               undefined := c.1.undefined }

/-- `Arrival::get_start(name)`, lines 196-204, for an arrival enclosed by the
batches of the list. The result is the value returned, then the arrival and the
batches as the reads `restime[name]` leave them. -/
def Arrival.get_start (name : String) : Arrival → List Batched → Time × Arrival × List Batched
  | a, [] => ((a.restime.at name).start, { a with restime := a.restime.touch name }, [])
  | a, b :: rest =>
    let start := (a.restime.at name).start
    let up := Arrival.get_start name b.toArrival rest
    let start := if up.1 ≥ 0 ∧ (start < 0 ∨ up.1 < start) then up.1 else start
    (start, { a with restime := a.restime.touch name },
      { b with toArrival := up.2.1 } :: up.2.2)

/-- The start recorded for resource `name` by an arrival (negative: no record). -/
def Arrival.own_start (a : Arrival) (name : String) : Time := (a.restime.at name).start

/-- The starts recorded for resource `name` by an arrival and by the batches
that enclose it, in that order, without the negative ones ("no record"). -/
def recordedStarts (name : String) (a : Arrival) (chain : List Batched) : List Time :=
  (a.own_start name :: chain.map fun b => b.toArrival.own_start name).filter fun t => decide (0 ≤ t)

/-- A call `resource->erase(...)`. -/
def Call.isErase : Call → Bool
  | Call.resource_erase _ _ _ => true
  | _ => false

/-- A call `sim->record_release(...)`. -/
def Call.isRelease : Call → Bool
  | Call.record_release _ _ _ _ => true
  | _ => false

/-- The arrival `a1` is `a` after it was released from all its resources: it
holds none, and differs from `a` at most in the resources and in `restime`. -/
def Arrival.releasedFrom (a1 a : Arrival) : Prop :=
  a1.resources = [] ∧ a1.toProcess = a.toProcess ∧ a1.activity = a.activity ∧
  a1.lifetime = a.lifetime ∧ a1.order = a.order ∧ a1.timer = a.timer

/-- Every resource of the list releases the arrival when its `erase` is called. -/
def releasing (sim : Sim) (resources : List Ref) : Prop :=
  ∀ r ∈ resources, (sim.resource r).erase_unregisters = true

/-- Example values of the status constants. -/
def exampleStatus : Status := { REJECT := -2, ENQUEUE := -1, BLOCK := 1000000 }

/-- An example simulator at time 10. Every activity returns `result`, activity
`n` is followed by activity `n + 1`; resource 1 answers `true` to `erase`, the
others `false`, and all of them release the arrival. -/
def exampleSim (result : Time) : Sim :=
  { now := 10
    activity := fun n =>
      { name := "act", priority := 0, next := some (n + 1), prev := none, run := fun _ => result }
    resource := fun r =>
      { name := "res" ++ toString r, erase_result := decide (r = 1), erase_unregisters := true } }

/-- An example arrival at activity 3, busy until 12, holding `resources`. -/
def exampleArrival (active : Bool) (resources : List Ref) : Arrival :=
  { id := 5, name := "arrival0", mon := 1, priority := 4, active := active
    order := { priority := 0, preemptible := 0, restart := false }
    activity := some 3
    lifetime := { start := 2, activity := 6, busy_until := 12, remaining := 0 }
    resources := resources, restime := [], timer := some 9 }

/-- An example batch with the given activity pointer, children and resources. -/
def exampleBatch (activity : Option Ref) (arrivals : List Ref) (resources : List Ref) : Batched :=
  { id := 20, name := "batch0", mon := 1, priority := 0, active := true
    order := { priority := 0, preemptible := 0, restart := false }
    activity := activity
    lifetime := { start := 2, activity := 6, busy_until := 12, remaining := 0 }
    resources := resources
    restime := [("res1", { start := 3, activity := 1, busy_until := -1, remaining := 0 })]
    timer := none, arrivals := arrivals, permanent := false }

/-! ## Further methods, classifications of calls and examples -/

/-- A periodic manager with a single value and a single duration. -/
def exampleSingleManager : Manager :=
  { id := 1, name := "mgr", mon := 0, priority := 0, active := true
    param := "capacity", duration := [0], value := [10], period := 0, index := 0 }

/-- Read a list of decimal digit characters, most significant first, as a
number continuing from `acc`. -/
def readDecimal (acc : Nat) (digits : List Char) : Nat :=
  digits.foldl (fun n c => 10 * n + (c.toNat - 48)) acc

/-- An example generator named "gen" whose counter stands at `count`. -/
def exampleGenerator (count : Int) : Generator :=
  { id := 7, name := "gen", mon := 1, priority := 0, active := true, count := count
    order := { priority := 0, preemptible := 0, restart := false }
    first_activity := 50 }

/-- `Arrival::restart()`, lines 131-135. -/
def Arrival.restart (sim : Sim) (a : Arrival) : Ret Unit Arrival :=
  let a1 := a.set_busy (sim.now + a.lifetime.remaining)
  let r := a1.activate a1.lifetime.remaining
  { val := (), self := r.self.set_remaining 0, calls := r.calls }

/-- `Arrival::interrupt()`, lines 137-146. `none`: `activity->get_prev()` is
called through a null activity pointer. -/
def Arrival.interrupt (sim : Sim) (a : Arrival) : Option (Ret Unit Arrival) :=
  -- deactivate();
  let d := a.deactivate
  if d.self.lifetime.busy_until < sim.now then
    some { val := (), self := d.self, calls := d.calls }
  else
    let a1 := d.self.unset_busy sim.now
    if a1.lifetime.remaining ≠ 0 ∧ a1.order.get_restart = true then
      let a2 := a1.unset_remaining
      match a2.activity with
      | none => none
      | some act =>
        some { val := (), self := { a2 with activity := (sim.activity act).prev }
               calls := d.calls }
    else
      some { val := (), self := a1, calls := d.calls }

/-- An active example arrival whose busy-until, 8, lies before the time 10 of
the example simulator. -/
def examplePastArrival : Arrival :=
  { exampleArrival true [] with
    lifetime := { start := 2, activity := 6, busy_until := 8, remaining := 0 } }

/-- What `Batched::terminate` leaves behind: the batch, the outcome of the
termination of each child that was reached, in list order, all calls in program
order, and whether the batch was destroyed. `undefined` is the mark of `ArrOut`:
the termination of a child, or of the batch itself, ran into undefined
behaviour. -/
structure BatchTermOut where
  self : Batched
  children : List ArrOut
  calls : List Call
  deleted : Bool
  undefined : Bool := false
  deriving DecidableEq, Repr

/-- The `foreach_` loop of `Batched::terminate`, lines 219-220, over leaf
arrivals: the outcome of each `arrival->terminate(finished)` in list order. The
loop goes no further than a child whose termination is undefined. -/
def Batched.terminate_children (sim : Sim) (child : Ref → Arrival) (finished : Bool) :
    List Ref → List ArrOut
  | [] => []
  | p :: ps =>
    let o := (child p).terminate sim finished false
    if o.undefined then [o] else o :: Batched.terminate_children sim child finished ps

/-- `Batched::terminate(finished)`, lines 218-223, for a batch whose children
are leaf arrivals, so that the virtual call at line 220 is
`Arrival::terminate`. `child p` is the arrival behind the pointer `p`; the
entries of the child list are taken to be distinct objects. When the
termination of a child is undefined nothing of what follows it is known to
happen: the outcome is what had been done until then, marked `undefined`. -/
def Batched.terminate (sim : Sim) (b : Batched) (child : Ref → Arrival) (finished : Bool) :
    BatchTermOut :=
  -- foreach_ (Arrival* arrival, arrivals) arrival->terminate(finished);
  let outs := Batched.terminate_children sim child finished b.arrivals
  if outs.any (fun o => o.undefined) then
    { self := b, children := outs, calls := outs.flatMap fun o => o.calls
      deleted := false, undefined := true }
  else
    -- arrivals.clear();
    let b1 : Batched := { b with arrivals := [] }
    -- Arrival::terminate(finished);
    let t := b1.toArrival.terminate sim finished true
    { self := { b1 with toArrival := t.self }
      children := outs
      calls := (outs.flatMap fun o => o.calls) ++ t.calls
      deleted := t.deleted
      undefined := t.undefined }

/-- Modelled from the spec: `cancel_timeout` is defined in the header. Section
3 gives an arrival an optional reneging timer handle; after the timeout is
cancelled the arrival has none. What becomes of the timer process itself is
outside the embedding. -/
def Arrival.cancel_timeout (a : Arrival) : Arrival := { a with timer := none }

/-- What `Arrival::reset` leaves behind: the arrival, the shared clone counter
(`none` once it has been freed), whether this call executed `delete clones`,
and the calls made. -/
structure ResetOut where
  self : Arrival
  clones : Option Int
  freed : Bool
  calls : List Call
  deriving DecidableEq, Repr

/-- `Arrival::reset()`, lines 86-91. `clones` is the content of the shared
counter the member `clones` points to, `none` when the counter has already been
freed: decrementing it then is undefined, and the result is `none`. -/
def Arrival.reset (a : Arrival) (clones : Option Int) : Option ResetOut :=
  -- cancel_timeout();
  let a1 := a.cancel_timeout
  match clones with
  | none => none
  | some v =>
    -- if (!--(*clones)) delete clones;
    let v1 := v - 1
    -- sim->unregister_arrival(this);
    let calls := [Call.unregister_arrival a.id]
    if v1 = 0 then some { self := a1, clones := none, freed := true, calls := calls }
    else some { self := a1, clones := some v1, freed := false, calls := calls }

/-- The arrivals of the list are reset one after the other, all pointing to the
same clone counter. `none`: one of the resets touched the counter after it was
freed. -/
def resetAll : List Arrival → Option Int → Option (List ResetOut)
  | [], _ => some []
  | a :: rest, clones =>
    match a.reset clones with
    | none => none
    | some r => (resetAll rest r.clones).map fun rs => r :: rs

/-- The clone counter after reset number `i` (counted from 0) of a series that
started with the value `v`: `v - 1 - i`, freed when that is zero. -/
def counterAfter (v : Int) (i : Nat) : Option Int :=
  if v - 1 - i = 0 then none else some (v - 1 - i)

/-- A sibling of the example arrival with its own handle. -/
def exampleSibling (id : Ref) : Arrival :=
  { exampleArrival true [] with id := id }

/-- The series of counter contents and frees when the arrivals of the list are
reset in list order on a counter holding `v`. -/
def counterTrace (sibs : List Arrival) (v : Int) : Option (List (Option Int × Bool)) :=
  (resetAll sibs (some v)).map fun outs => outs.map fun o => (o.clones, o.freed)

/-- The scheduler as the set of outstanding events, seen from the process
`who`: whether an event is outstanding for it once `calls` have been made,
given whether one was outstanding before. `schedule` leaves an event for its
process, `unschedule` removes it. -/
def outstanding (who : Ref) : Bool → List Call → Bool
  | before, [] => before
  | before, Call.schedule _ p _ :: cs => outstanding who (if p = who then true else before) cs
  | before, Call.unschedule p :: cs => outstanding who (if p = who then false else before) cs
  | before, _ :: cs => outstanding who before cs

/-- The manager of the worked example when its last event fires: index 2,
`active` true. -/
def exampleLastManager : Manager := { exampleManager (-1) with index := 2, active := true }

/-- The addition of doubles on whole numbers from `2^53` up to `2^54`, where
only the even numbers are representable: an odd sum is a tie between its two
neighbours and goes to the one that is a multiple of 4 (round to nearest, ties
to even). Sums outside that range are taken exactly. -/
def roundedOps : DoubleOps Time :=
  { zero := 0
    add := fun x y =>
      let s := x + y
      if 9007199254740992 ≤ s ∧ s < 18014398509481984 ∧ s % 2 = 1 then
        (if (s + 1) % 4 = 0 then s + 1 else s - 1)
      else s
    isNeg := fun x => decide (x < 0) }

/-! ## Theorems -/

theorem Process.applyOps_append (p : Process) (xs ys : List Op) :
    p.applyOps (xs ++ ys) =
      { val := (p.applyOps xs).val ++ ((p.applyOps xs).self.applyOps ys).val
        self := ((p.applyOps xs).self.applyOps ys).self
        calls := (p.applyOps xs).calls ++ ((p.applyOps xs).self.applyOps ys).calls } := by
  induction xs generalizing p with
  | nil => simp [Process.applyOps]
  | cons x xs ih => simp [Process.applyOps, ih]

theorem Process.applyOps_val_length (p : Process) (xs : List Op) :
    (p.applyOps xs).val.length = xs.length := by
  induction xs generalizing p with
  | nil => simp [Process.applyOps]
  | cons x xs ih => simp [Process.applyOps, ih]

theorem Process.applyOp_active (p : Process) (op : Op) :
    (p.applyOp op).self.active = true ↔ ∃ d, op = Op.activate d := by
  cases op with
  | activate d => simp [Process.applyOp, Process.activate]
  | deactivate =>
    cases h : p.active <;> simp [Process.applyOp, Process.deactivate, h]

theorem Process.applyOp_val (p : Process) (op : Op) :
    (p.applyOp op).val = (match op with
      | Op.activate _ => true
      | Op.deactivate => p.active) := by
  cases op with
  | activate d => simp [Process.applyOp, Process.activate]
  | deactivate =>
    cases h : p.active <;> simp [Process.applyOp, Process.deactivate, h]

theorem Process.deactivate_active (p : Process) : (p.deactivate).self.active = false := by
  cases h : p.active <;> simp [Process.deactivate, h]

/-- C1: for every process and every sequence of activate / deactivate calls:
every activate returns true (and schedules); a deactivate returns true exactly
when the process was active just before it; on an inactive process it returns
false, makes no call (no unschedule) and leaves the process as it was; the k-th
return value of a sequence is the one described, read off the state reached by
the calls before it; after a non-empty sequence `active` is true exactly when
the last call was an activate; and the second of two consecutive deactivates
returns false, wherever they occur. -/
theorem C1_activate_deactivate (p : Process) (pre post : List Op) (op : Op) :
    (∀ d, (p.activate d).val = true ∧ (p.activate d).self.active = true ∧
        (p.activate d).calls = [Call.schedule d p.id p.priority]) ∧
    (p.deactivate).val = p.active ∧
    ({ p with active := false }.deactivate =
        { val := false, self := { p with active := false }, calls := [] }) ∧
    ({ p with active := true }.deactivate =
        { val := true, self := { p with active := false }, calls := [Call.unschedule p.id] }) ∧
    ((p.applyOps (pre ++ op :: post)).val[pre.length]? =
        some (match op with
          | Op.activate _ => true
          | Op.deactivate => (p.applyOps pre).self.active)) ∧
    ((p.applyOps (pre ++ [op])).self.active = true ↔ ∃ d, op = Op.activate d) ∧
    ((p.applyOps (pre ++ Op.deactivate :: Op.deactivate :: post)).val[pre.length + 1]? =
        some false) := by
  refine ⟨fun d => ⟨rfl, rfl, rfl⟩, ?_, rfl, rfl, ?_, ?_, ?_⟩
  · cases h : p.active <;> simp [Process.deactivate, h]
  · rw [Process.applyOps_append]
    have hl := Process.applyOps_val_length p pre
    simp only [Process.applyOps]
    rw [List.getElem?_append_right (by omega)]
    simp [hl, Process.applyOp_val]
  · rw [Process.applyOps_append]
    simp only [Process.applyOps]
    exact Process.applyOp_active _ _
  · rw [Process.applyOps_append]
    have hl := Process.applyOps_val_length p pre
    simp only [Process.applyOps]
    rw [List.getElem?_append_right (by omega)]
    simp only [hl, Process.applyOp]
    have h1 := Process.applyOp_val (p.applyOps pre).self.deactivate.self Op.deactivate
    simp only [Process.applyOp, Process.deactivate_active] at h1
    simp [h1]

/-! ### Manager -/

theorem Manager.run_inner (m : Manager) (hlen : m.value.length = m.duration.length)
    (h : m.index + 1 < m.duration.length) :
    m.run = some
      { val := ()
        self := { m with index := m.index + 1, active := true }
        calls := [Call.set m.param (m.value.getD m.index 0),
                  Call.schedule (m.duration.getD (m.index + 1) 0) m.id m.priority] } := by
  have h1 : m.index < m.value.length := by omega
  have h2 : m.index + 1 ≠ m.duration.length := by omega
  simp [Manager.run, Manager.activate, Process.activate, List.getElem?_eq_getElem h1,
    List.getElem?_eq_getElem h, h2, List.getD_eq_getElem?_getD]

theorem Manager.run_last_stop (m : Manager) (hlen : m.value.length = m.duration.length)
    (h : m.index + 1 = m.duration.length) (hp : m.period < 0) :
    m.run = some
      { val := ()
        self := { m with index := m.index + 1 }
        calls := [Call.set m.param (m.value.getD m.index 0)] } := by
  have h1 : m.index < m.value.length := by omega
  simp [Manager.run, List.getElem?_eq_getElem h1, h, hp, List.getD_eq_getElem?_getD]

theorem Manager.run_last_wrap (m : Manager) (hlen : m.value.length = m.duration.length)
    (h : m.index + 1 = m.duration.length) (hp : 0 ≤ m.period) (h2 : 2 ≤ m.duration.length) :
    m.run = some
      { val := ()
        self := { m with index := 1, active := true }
        calls := [Call.set m.param (m.value.getD m.index 0),
                  Call.schedule (m.duration.getD 1 0) m.id m.priority] } := by
  have h1 : m.index < m.value.length := by omega
  have h3 : 1 < m.duration.length := by omega
  have hp2 : ¬ m.period < 0 := by omega
  simp [Manager.run, Manager.activate, Process.activate, List.getElem?_eq_getElem h1,
    List.getElem?_eq_getElem h3, h, hp2, List.getD_eq_getElem?_getD]

theorem MgrSim.steps_idle (n : Nat) (s : MgrSim) (h : s.pending = none) :
    MgrSim.steps n s = some s := by
  induction n with
  | zero => rfl
  | succ n ih => simp [MgrSim.steps, MgrSim.step, h, ih]

theorem MgrSim.step_inner (m : Manager) (now t : Time) (A : List (Time × Int))
    (hlen : m.value.length = m.duration.length) (h : m.index + 1 < m.duration.length) :
    MgrSim.step { now := now, mgr := m, pending := some t, applied := A } = some
      { now := t
        mgr := { m with index := m.index + 1, active := true }
        pending := some (t + m.duration.getD (m.index + 1) 0)
        applied := A ++ [(t, m.value.getD m.index 0)] } := by
  simp [MgrSim.step, Manager.run_inner m hlen h, pendingAfter, setterCalls]

theorem MgrSim.step_last_stop (m : Manager) (now t : Time) (A : List (Time × Int))
    (hlen : m.value.length = m.duration.length) (h : m.index + 1 = m.duration.length)
    (hp : m.period < 0) :
    MgrSim.step { now := now, mgr := m, pending := some t, applied := A } = some
      { now := t
        mgr := { m with index := m.index + 1 }
        pending := none
        applied := A ++ [(t, m.value.getD m.index 0)] } := by
  simp [MgrSim.step, Manager.run_last_stop m hlen h hp, pendingAfter, setterCalls]

theorem MgrSim.step_last_wrap (m : Manager) (now t : Time) (A : List (Time × Int))
    (hlen : m.value.length = m.duration.length) (h : m.index + 1 = m.duration.length)
    (hp : 0 ≤ m.period) (h2 : 2 ≤ m.duration.length) :
    MgrSim.step { now := now, mgr := m, pending := some t, applied := A } = some
      { now := t
        mgr := { m with index := 1, active := true }
        pending := some (t + m.duration.getD 1 0)
        applied := A ++ [(t, m.value.getD m.index 0)] } := by
  simp [MgrSim.step, Manager.run_last_wrap m hlen h hp h2, pendingAfter, setterCalls]

theorem sum_take_succ_getD (l : List Time) (i : Nat) (h : i < l.length) :
    (l.take (i + 1)).sum = (l.take i).sum + l.getD i 0 := by
  rw [List.sum_take_succ l i h, List.getD_eq_getElem?_getD, List.getElem?_eq_getElem h]
  rfl

theorem MgrSim.steps_stop (n : Nat) : ∀ (m : Manager) (now t0 : Time) (A : List (Time × Int)),
    m.value.length = m.duration.length → m.period < 0 → m.index < m.duration.length →
    ∃ s1, MgrSim.steps n
        { now := now, mgr := m, pending := some (t0 + (m.duration.take (m.index + 1)).sum)
          applied := A } = some s1 ∧
      s1.applied = A ++
        (List.range' m.index (min n (m.duration.length - m.index))).map
          (fun i => (t0 + (m.duration.take (i + 1)).sum, m.value.getD i 0)) ∧
      (s1.pending = none ↔ m.duration.length - m.index ≤ n) := by
  induction n with
  | zero =>
    intro m now t0 A hlen hp hi
    refine ⟨_, rfl, by simp, ?_⟩
    simp only [Nat.le_zero, reduceCtorEq, false_iff]
    omega
  | succ n ih =>
    intro m now t0 A hlen hp hi
    by_cases hlast : m.index + 1 = m.duration.length
    · refine ⟨{ now := t0 + (m.duration.take (m.index + 1)).sum
                mgr := { m with index := m.index + 1 }
                pending := none
                applied := A ++ [(t0 + (m.duration.take (m.index + 1)).sum,
                  m.value.getD m.index 0)] }, ?_, ?_, ?_⟩
      · rw [MgrSim.steps, MgrSim.step_last_stop m _ _ _ hlen hlast hp]
        exact MgrSim.steps_idle n _ rfl
      · have hm : min (n + 1) (m.duration.length - m.index) = 1 := by omega
        simp [hm, List.range'_succ]
      · simp only [true_iff]
        omega
    · have hin : m.index + 1 < m.duration.length := by omega
      obtain ⟨s1, h1, h2, h3⟩ := ih { m with index := m.index + 1, active := true }
        (t0 + (m.duration.take (m.index + 1)).sum) t0
        (A ++ [(t0 + (m.duration.take (m.index + 1)).sum, m.value.getD m.index 0)])
        hlen hp hin
      dsimp only at h1 h2 h3
      refine ⟨s1, ?_, ?_, ?_⟩
      · rw [MgrSim.steps, MgrSim.step_inner m _ _ _ hlen hin]
        rw [sum_take_succ_getD _ _ hin, ← add_assoc] at h1
        exact h1
      · rw [h2]
        have hm : min (n + 1) (m.duration.length - m.index) =
            min n (m.duration.length - (m.index + 1)) + 1 := by omega
        simp [hm, List.range'_succ]
      · rw [h3]
        omega

theorem Manager.start_eq (m : Manager) (now : Time) (h : m.index < m.duration.length) :
    m.start now = some
      { now := now, mgr := { m with active := true }
        pending := some (now + m.duration.getD m.index 0), applied := [] } := by
  simp [Manager.start, Manager.activate, Process.activate, List.getElem?_eq_getElem h,
    pendingAfter, List.getD_eq_getElem?_getD]

/-- C3: a manager with `m >= 1` values and as many durations, a negative period
and index 0, activated at time 0: after `n` turns of the event loop the setter
has been called `min n m` times, the `i`-th call with `value[i]` at time
`duration[0]+...+duration[i]`; once `n >= m` no event is outstanding (and none
before), so the list of calls stays at these `m` calls for every later `n`; and
the run that applies the last value makes the setter call and no other call. -/
theorem C3_manager_negative_period (m : Manager) (n : Nat)
    (hlen : m.value.length = m.duration.length) (hm : 1 ≤ m.duration.length)
    (hp : m.period < 0) (hi : m.index = 0) :
    (∃ s, m.simulate n = some s ∧
      s.applied = (List.range (min n m.duration.length)).map
        (fun i => ((m.duration.take (i + 1)).sum, m.value.getD i 0)) ∧
      (s.pending = none ↔ m.duration.length ≤ n)) ∧
    Manager.run { m with index := m.duration.length - 1 } = some
      { val := ()
        self := { m with index := m.duration.length }
        calls := [Call.set m.param (m.value.getD (m.duration.length - 1) 0)] } := by
  constructor
  · have h0 : m.index < m.duration.length := by omega
    obtain ⟨s1, h1, h2, h3⟩ := MgrSim.steps_stop n { m with active := true } 0 0 [] hlen hp h0
    dsimp only at h1 h2 h3
    refine ⟨s1, ?_, ?_, ?_⟩
    · rw [Manager.simulate, Manager.start_eq m 0 h0, Option.some_bind]
      rw [sum_take_succ_getD _ _ h0] at h1
      simpa [hi] using h1
    · rw [h2, hi, List.range_eq_range']
      simp
    · rw [h3, hi]
      simp
  · have h := Manager.run_last_stop { m with index := m.duration.length - 1 } hlen
      (by simp; omega) hp
    rw [h]
    simp
    omega

/-- C3, the worked example: values 10, 20, 30 with durations 0, 5, 5 and period
-1 are applied at times 0, 5 and 10; after that no event is outstanding. -/
theorem C3_manager_negative_period_witness :
    ∃ s, (exampleManager (-1)).simulate 5 = some s ∧
      s.applied = [(0, 10), (5, 20), (10, 30)] ∧ s.pending = none := by
  obtain ⟨s, h1, h2, h3⟩ :=
    (C3_manager_negative_period (exampleManager (-1)) 5 (by decide) (by decide) (by decide)
      rfl).1
  exact ⟨s, h1, by rw [h2]; decide, h3.mpr (by decide)⟩

theorem MgrSim.step_cycle (m : Manager) (now t : Time) (A : List (Time × Int))
    (hlen : m.value.length = m.duration.length) (hi : m.index < m.duration.length)
    (hp : 0 ≤ m.period) (h2 : 2 ≤ m.duration.length) :
    MgrSim.step { now := now, mgr := m, pending := some t, applied := A } = some
      { now := t
        mgr := { m with index := Manager.nextIndex m.duration.length m.index, active := true }
        pending := some (t + m.duration.getD (Manager.nextIndex m.duration.length m.index) 0)
        applied := A ++ [(t, m.value.getD m.index 0)] } := by
  by_cases hlast : m.index + 1 = m.duration.length
  · rw [MgrSim.step_last_wrap m now t A hlen hlast hp h2]
    simp [Manager.nextIndex, hlast]
  · rw [MgrSim.step_inner m now t A hlen (by omega)]
    simp [Manager.nextIndex, hlast]

theorem Manager.nextIndex_lt (len j : Nat) (h2 : 2 ≤ len) (hj : j < len) :
    Manager.nextIndex len j < len := by
  unfold Manager.nextIndex
  split <;> omega

theorem MgrSim.steps_cycle (n : Nat) : ∀ (m : Manager) (now t : Time) (A : List (Time × Int)),
    m.value.length = m.duration.length → m.index < m.duration.length →
    0 ≤ m.period → 2 ≤ m.duration.length →
    ∃ s1, MgrSim.steps n { now := now, mgr := m, pending := some t, applied := A } = some s1 ∧
      s1.applied.map Prod.snd = A.map Prod.snd ++
        (List.range n).map
          (fun k => m.value.getD ((Manager.nextIndex m.duration.length)^[k] m.index) 0) ∧
      s1.pending ≠ none ∧
      s1.mgr.index = (Manager.nextIndex m.duration.length)^[n] m.index := by
  induction n with
  | zero =>
    intro m now t A _ _ _ _
    exact ⟨_, rfl, by simp, by simp, rfl⟩
  | succ n ih =>
    intro m now t A hlen hi hp h2
    obtain ⟨s1, h1, h3, h4, h5⟩ :=
      ih { m with index := Manager.nextIndex m.duration.length m.index, active := true }
        t (t + m.duration.getD (Manager.nextIndex m.duration.length m.index) 0)
        (A ++ [(t, m.value.getD m.index 0)]) hlen
        (Manager.nextIndex_lt _ _ h2 hi) hp h2
    dsimp only at h1 h3 h4 h5
    refine ⟨s1, ?_, ?_, h4, ?_⟩
    · rw [MgrSim.steps, MgrSim.step_cycle m now t A hlen hi hp h2]
      exact h1
    · rw [h3, List.range_succ_eq_map]
      simp [Function.comp, Function.iterate_succ_apply]
    · rw [h5, Function.iterate_succ_apply]

theorem succ_mod_cases (a b : Nat) (hb : 0 < b) :
    (a + 1) % b = if a % b + 1 = b then 0 else a % b + 1 := by
  have hlt := Nat.mod_lt a hb
  have hdm := Nat.div_add_mod a b
  split
  · next h =>
    have : a + 1 = b * (a / b + 1) := by
      rw [Nat.mul_add, Nat.mul_one]
      omega
    rw [this, Nat.mul_mod_right]
  · next h =>
    have : a + 1 = b * (a / b) + (a % b + 1) := by omega
    rw [this, Nat.mul_add_mod, Nat.mod_eq_of_lt (by omega)]

theorem Manager.iterate_nextIndex (len k : Nat) (h2 : 2 ≤ len) :
    (Manager.nextIndex len)^[k] 0 = Manager.cycleIndex len k := by
  induction k with
  | zero => simp [Manager.cycleIndex]
  | succ k ih =>
    rw [Function.iterate_succ_apply', ih]
    by_cases hk : k = 0
    · subst hk
      have : ¬ (1 = len) := by omega
      simp [Manager.cycleIndex, Manager.nextIndex, this]
    · obtain ⟨j, rfl⟩ : ∃ j, k = j + 1 := ⟨k - 1, by omega⟩
      have hm := succ_mod_cases j (len - 1) (by omega)
      have hlt := Nat.mod_lt j (show 0 < len - 1 by omega)
      simp only [Manager.cycleIndex, Manager.nextIndex, Nat.add_sub_cancel, hm]
      simp only [Nat.add_one_ne_zero, if_false]
      split <;> split <;> omega

theorem Manager.cycleIndex_range (len k : Nat) (h2 : 2 ≤ len) (hk : 1 ≤ k) :
    1 ≤ Manager.cycleIndex len k ∧ Manager.cycleIndex len k < len := by
  have hlt := Nat.mod_lt (k - 1) (show 0 < len - 1 by omega)
  have : k ≠ 0 := by omega
  simp only [Manager.cycleIndex, this, if_false]
  omega

/-- C4: a manager with `m >= 2` values and as many durations and a period that
is not negative. A run entered with index `m-1` applies `value[m-1]`, sets the
index to 1 and reactivates (after `duration[1]`). Started at index 0, after any
number `n` of turns of the event loop the setter has been called `n` times, the
`k`-th call with `value[c k]`, where `c` runs 0, 1, ..., m-1, 1, ..., m-1, 1, ...;
an event is still outstanding; the index for the next run is `c n`; and `c k`
is never 0 again for `k >= 1`. -/
theorem C4_manager_periodic (m : Manager) (n : Nat)
    (hlen : m.value.length = m.duration.length) (h2 : 2 ≤ m.duration.length)
    (hp : 0 ≤ m.period) (hi : m.index = 0) :
    Manager.run { m with index := m.duration.length - 1 } = some
      { val := ()
        self := { m with index := 1, active := true }
        calls := [Call.set m.param (m.value.getD (m.duration.length - 1) 0),
                  Call.schedule (m.duration.getD 1 0) m.id m.priority] } ∧
    (∃ s, m.simulate n = some s ∧
      s.applied.map Prod.snd = (List.range n).map
        (fun k => m.value.getD (Manager.cycleIndex m.duration.length k) 0) ∧
      s.pending ≠ none ∧
      s.mgr.index = Manager.cycleIndex m.duration.length n) ∧
    (∀ k, 1 ≤ k → 1 ≤ Manager.cycleIndex m.duration.length k ∧
      Manager.cycleIndex m.duration.length k < m.duration.length) := by
  refine ⟨?_, ?_, fun k hk => Manager.cycleIndex_range _ k h2 hk⟩
  · exact Manager.run_last_wrap { m with index := m.duration.length - 1 } hlen
      (by simp; omega) hp h2
  · have h0 : m.index < m.duration.length := by omega
    obtain ⟨s1, h1, h3, h4, h5⟩ := MgrSim.steps_cycle n { m with active := true } 0
      (0 + m.duration.getD m.index 0) [] hlen h0 hp h2
    dsimp only at h1 h3 h4 h5
    refine ⟨s1, ?_, ?_, h4, ?_⟩
    · rw [Manager.simulate, Manager.start_eq m 0 h0, Option.some_bind]
      exact h1
    · rw [h3, hi]
      simp [Manager.iterate_nextIndex _ _ h2]
    · rw [h5, hi, Manager.iterate_nextIndex _ _ h2]

/-- C4, the worked example: with values 10, 20, 30 and period 0 the first five
values applied are 10, 20, 30, 20, 30 and an event is still outstanding. -/
theorem C4_manager_periodic_witness :
    ∃ s, (exampleManager 0).simulate 5 = some s ∧
      s.applied.map Prod.snd = [10, 20, 30, 20, 30] ∧ s.pending ≠ none := by
  obtain ⟨s, h1, h2, h3, _⟩ :=
    (C4_manager_periodic (exampleManager 0) 5 (by decide) (by decide) (by decide) rfl).2.1
  exact ⟨s, h1, by rw [h2]; decide, h3⟩

/-! ### Arrival::run -/

/-- C5 as stated fails: an arrival that is active when `Arrival::run` is called
(as it is when the scheduler fires its event) and whose activity returns REJECT
ends with `active = false`, because line 109 clears the flag before the
activity runs. -/
theorem C5_reject_active_counterexample :
    (exampleArrival true []).activity = some 3 ∧
    ((exampleSim (-2)).activity 3).run ((exampleArrival true []).before_activity (exampleSim (-2)))
      = exampleStatus.REJECT ∧
    (exampleArrival true []).active = true ∧
    (Arrival.run exampleStatus (exampleSim (-2)) (exampleArrival true [])).self.active = false := by
  decide

/-- C5, amended: when the current activity is not null and its execution
returns REJECT, `Arrival::run` leaves the activity pointer as it was, makes no
call besides running the activity (in particular schedules nothing), does not
destroy the arrival, and ends with `active = false` whatever the flag was
before; so the flag is unchanged exactly when it was false. -/
theorem C5_reject (st : Status) (sim : Sim) (a : Arrival) (act : Ref)
    (hact : a.activity = some act)
    (hres : (sim.activity act).run (a.before_activity sim) = st.REJECT) :
    (Arrival.run st sim a).self.activity = a.activity ∧
    (Arrival.run st sim a).calls = [Call.activity_run act a.id] ∧
    (∀ d p prio, Call.schedule d p prio ∉ (Arrival.run st sim a).calls) ∧
    (Arrival.run st sim a).deleted = false ∧
    (Arrival.run st sim a).self.active = false ∧
    ((Arrival.run st sim a).self.active = a.active ↔ a.active = false) := by
  have hrun : Arrival.run st sim a =
      { self := a.before_activity sim, calls := [Call.activity_run act a.id], deleted := false } := by
    simp only [Arrival.run, hact, hres, if_true]
    simp only [Arrival.before_activity]
    split <;> rfl
  have hb : (a.before_activity sim).activity = a.activity := by
    simp only [Arrival.before_activity]
    split <;> rfl
  rw [hrun]
  refine ⟨hb, rfl, ?_, rfl, rfl, ?_⟩
  · intro d p prio
    simp
  · simp only [Arrival.before_activity]
    constructor
    · intro h; exact h.symm
    · intro h; exact h.symm

/-- C5, amended, at an inactive example arrival: the flag stays false. -/
theorem C5_reject_witness :
    (Arrival.run exampleStatus (exampleSim (-2)) (exampleArrival false [])).self.activity = some 3 ∧
    (Arrival.run exampleStatus (exampleSim (-2)) (exampleArrival false [])).self.active = false :=
  ⟨(C5_reject exampleStatus (exampleSim (-2)) (exampleArrival false []) 3 rfl rfl).1,
   (C5_reject exampleStatus (exampleSim (-2)) (exampleArrival false []) 3 rfl rfl).2.2.2.2.1⟩

/-- C6: when the current activity is not null and its execution returns
ENQUEUE (a status distinct from REJECT), `Arrival::run` sets the activity
pointer to the next activity, makes no call besides running the activity (in
particular schedules nothing), leaves busy-until and the accumulated activity
time as they were, does not destroy the arrival and ends with `active = false`. -/
theorem C6_enqueue (st : Status) (sim : Sim) (a : Arrival) (act : Ref)
    (hst : st.ENQUEUE ≠ st.REJECT)
    (hact : a.activity = some act)
    (hres : (sim.activity act).run (a.before_activity sim) = st.ENQUEUE) :
    (Arrival.run st sim a).self.activity = (sim.activity act).next ∧
    (Arrival.run st sim a).calls = [Call.activity_run act a.id] ∧
    (∀ d p prio, Call.schedule d p prio ∉ (Arrival.run st sim a).calls) ∧
    (Arrival.run st sim a).self.lifetime.busy_until = a.lifetime.busy_until ∧
    (Arrival.run st sim a).self.lifetime.activity = a.lifetime.activity ∧
    (Arrival.run st sim a).deleted = false ∧
    (Arrival.run st sim a).self.active = false := by
  have hrun : Arrival.run st sim a =
      { self := { a.before_activity sim with activity := (sim.activity act).next }
        calls := [Call.activity_run act a.id], deleted := false } := by
    simp only [Arrival.run, hact, hres, hst, if_true, if_false]
    simp only [Arrival.before_activity]
    split <;> rfl
  rw [hrun]
  refine ⟨rfl, rfl, ?_, ?_, ?_, rfl, rfl⟩
  · intro d p prio
    simp
  · simp only [Arrival.before_activity]
    split <;> rfl
  · simp only [Arrival.before_activity]
    split <;> rfl

/-- C6 at an example arrival at activity 3 whose activity returns ENQUEUE. -/
theorem C6_enqueue_witness :
    (Arrival.run exampleStatus (exampleSim (-1)) (exampleArrival true [])).self.activity = some 4 ∧
    (Arrival.run exampleStatus (exampleSim (-1)) (exampleArrival true [])).self.active = false :=
  ⟨(C6_enqueue exampleStatus (exampleSim (-1)) (exampleArrival true []) 3 (by decide) rfl rfl).1,
   (C6_enqueue exampleStatus (exampleSim (-1)) (exampleArrival true []) 3 (by decide) rfl
      rfl).2.2.2.2.2.2⟩

/-! ### Arrival::get_start -/

theorem recordedStarts_cons (name : String) (a : Arrival) (b : Batched) (rest : List Batched) :
    recordedStarts name a (b :: rest) =
      (if 0 ≤ a.own_start name then [a.own_start name] else []) ++
        recordedStarts name b.toArrival rest := by
  unfold recordedStarts
  by_cases h : 0 ≤ a.own_start name <;> simp [List.filter_cons, h]

theorem Arrival.get_start_spec (name : String) (chain : List Batched) : ∀ a : Arrival,
    (recordedStarts name a chain = [] → (Arrival.get_start name a chain).1 = a.own_start name) ∧
    (recordedStarts name a chain ≠ [] →
      (Arrival.get_start name a chain).1 ∈ recordedStarts name a chain ∧
      ∀ t ∈ recordedStarts name a chain, (Arrival.get_start name a chain).1 ≤ t) := by
  induction chain with
  | nil =>
    intro a
    by_cases h : 0 ≤ a.own_start name
    · simp [recordedStarts, Arrival.get_start, h, Arrival.own_start]
    · simp [recordedStarts, Arrival.get_start, h, Arrival.own_start]
  | cons b rest ih =>
    intro a
    obtain ⟨ih1, ih2⟩ := ih b.toArrival
    have hval : (Arrival.get_start name a (b :: rest)).1 =
        if (Arrival.get_start name b.toArrival rest).1 ≥ 0 ∧
            (a.own_start name < 0 ∨ (Arrival.get_start name b.toArrival rest).1 < a.own_start name)
        then (Arrival.get_start name b.toArrival rest).1 else a.own_start name := rfl
    rw [hval, recordedStarts_cons]
    by_cases hup : recordedStarts name b.toArrival rest = []
    · have hu := ih1 hup
      by_cases h : 0 ≤ a.own_start name
      · have hb : ¬ 0 ≤ b.toArrival.own_start name := by
          intro hb
          have : b.toArrival.own_start name ∈ recordedStarts name b.toArrival rest := by
            simp [recordedStarts, List.filter_cons, hb]
          rw [hup] at this
          simp at this
        have hcond : ¬ ((Arrival.get_start name b.toArrival rest).1 ≥ 0 ∧
            (a.own_start name < 0 ∨
              (Arrival.get_start name b.toArrival rest).1 < a.own_start name)) := by
          rw [hu]; (simp only [Time] at *; omega)
        simp [hup, h, hcond]
      · have hcond : ¬ ((Arrival.get_start name b.toArrival rest).1 ≥ 0 ∧
            (a.own_start name < 0 ∨
              (Arrival.get_start name b.toArrival rest).1 < a.own_start name)) := by
          rw [hu]
          intro hc
          have hb : b.toArrival.own_start name ∈ recordedStarts name b.toArrival rest := by
            simp [recordedStarts, List.filter_cons, hc.1]
          rw [hup] at hb
          simp at hb
        simp [hup, h, hcond]
    · obtain ⟨hmem, hmin⟩ := ih2 hup
      have hnn : 0 ≤ (Arrival.get_start name b.toArrival rest).1 := by
        have := hmem
        unfold recordedStarts at this
        rw [List.mem_filter] at this
        simpa using this.2
      by_cases h : 0 ≤ a.own_start name
      · by_cases hlt : (Arrival.get_start name b.toArrival rest).1 < a.own_start name
        · have hcond : (Arrival.get_start name b.toArrival rest).1 ≥ 0 ∧
              (a.own_start name < 0 ∨
                (Arrival.get_start name b.toArrival rest).1 < a.own_start name) :=
            ⟨hnn, Or.inr hlt⟩
          simp only [hcond, and_self, if_true, h]
          refine ⟨fun hne => ?_, fun _ => ⟨?_, ?_⟩⟩
          · simp at hne
          · simp [hmem]
          · intro t ht
            simp only [List.singleton_append, List.mem_cons] at ht
            rcases ht with rfl | ht
            · (simp only [Time] at *; omega)
            · exact hmin t ht
        · have hcond : ¬ ((Arrival.get_start name b.toArrival rest).1 ≥ 0 ∧
              (a.own_start name < 0 ∨
                (Arrival.get_start name b.toArrival rest).1 < a.own_start name)) := by
            (simp only [Time] at *; omega)
          simp only [hcond, if_false, h, if_true]
          refine ⟨fun hne => ?_, fun _ => ⟨?_, ?_⟩⟩
          · simp at hne
          · simp
          · intro t ht
            simp only [List.singleton_append, List.mem_cons] at ht
            rcases ht with rfl | ht
            · (simp only [Time] at *; omega)
            · have := hmin t ht
              (simp only [Time] at *; omega)
      · have hcond : (Arrival.get_start name b.toArrival rest).1 ≥ 0 ∧
            (a.own_start name < 0 ∨
              (Arrival.get_start name b.toArrival rest).1 < a.own_start name) :=
          ⟨hnn, Or.inl (by (simp only [Time] at *; omega))⟩
        simp only [hcond, and_self, if_true, h, if_false, List.nil_append]
        exact ⟨fun hne => absurd hne hup, fun _ => ⟨hmem, hmin⟩⟩

/-- C10: for every arrival, resource name and list of enclosing batches,
`get_start` returns the least of the non-negative starts recorded for that
resource by the arrival and its ancestor batches; when none of them has a
record it returns the arrival's own (negative) value; and for an arrival in a
single batch, both with a record, it returns the smaller of the two starts. -/
theorem C10_get_start (name : String) (a : Arrival) (chain : List Batched) (b : Batched) :
    (recordedStarts name a chain = [] →
      (Arrival.get_start name a chain).1 = a.own_start name ∧ a.own_start name < 0) ∧
    (recordedStarts name a chain ≠ [] →
      (Arrival.get_start name a chain).1 ∈ recordedStarts name a chain ∧
      ∀ t ∈ recordedStarts name a chain, (Arrival.get_start name a chain).1 ≤ t) ∧
    (0 ≤ a.own_start name → 0 ≤ b.toArrival.own_start name →
      (Arrival.get_start name a [b]).1 = min (a.own_start name) (b.toArrival.own_start name)) ∧
    (a.own_start name < 0 → 0 ≤ b.toArrival.own_start name →
      (Arrival.get_start name a [b]).1 = b.toArrival.own_start name) ∧
    (b.toArrival.own_start name < 0 →
      (Arrival.get_start name a [b]).1 = a.own_start name) := by
  refine ⟨fun h => ⟨(Arrival.get_start_spec name chain a).1 h, ?_⟩,
    (Arrival.get_start_spec name chain a).2, ?_, ?_, ?_⟩
  · by_contra hneg
    have : a.own_start name ∈ recordedStarts name a chain := by
      have h0 : 0 ≤ a.own_start name := by (simp only [Time] at *; omega)
      simp [recordedStarts, List.filter_cons, h0]
    rw [h] at this
    simp at this
  · intro h1 h2
    simp only [Arrival.get_start, Arrival.own_start] at *
    by_cases hlt : (b.restime.at name).start < (a.restime.at name).start
    · simp [h2, hlt]; (simp only [Time] at *; omega)
    · simp [h2, hlt]; (simp only [Time] at *; omega)
  · intro h1 h2
    simp only [Arrival.get_start, Arrival.own_start] at *
    simp [h2, h1]
  · intro h1
    simp only [Arrival.get_start, Arrival.own_start] at *
    have : ¬ (b.restime.at name).start ≥ 0 := by (simp only [Time] at *; omega)
    simp [this]

/-- C10 at an arrival that recorded start 7 for a resource, in a batch that
recorded start 3 for it: the batch's earlier start is returned. -/
theorem C10_get_start_witness :
    (Arrival.get_start "res1"
      { exampleArrival true [] with
        restime := [("res1", { start := 7, activity := 0, busy_until := -1, remaining := 0 })] }
      [exampleBatch none [5] []]).1 = 3 :=
  ((C10_get_start "res1"
      { exampleArrival true [] with
        restime := [("res1", { start := 7, activity := 0, busy_until := -1, remaining := 0 })] }
      [] (exampleBatch none [5] [])).2.2.1 (by decide) (by decide)).trans (by decide)

/-! ### The release loop -/

theorem Resource.erase_head (sim : Sim) (a : Arrival) (r : Ref) (rs : List Ref)
    (hres : a.resources = r :: rs) (hr : (sim.resource r).erase_unregisters = true) :
    (Resource.erase sim r false a).val = (sim.resource r).erase_result ∧
    (Resource.erase sim r false a).self.resources = rs ∧
    (Resource.erase sim r false a).self.toProcess = a.toProcess ∧
    (Resource.erase sim r false a).self.activity = a.activity ∧
    (Resource.erase sim r false a).self.lifetime = a.lifetime ∧
    (Resource.erase sim r false a).self.order = a.order ∧
    (Resource.erase sim r false a).self.timer = a.timer ∧
    (Resource.erase sim r false a).calls = Call.resource_erase r a.id false ::
      (if a.mon ≠ 0 then
        [Call.record_release a.name (a.restime.at (sim.resource r).name).start
          (a.restime.at (sim.resource r).name).activity (sim.resource r).name]
       else []) := by
  by_cases hm : a.mon = 0
  · simp [Resource.erase, hr, Arrival.unregister_entity, Process.is_monitored, hm, hres]
  · simp [Resource.erase, hr, Arrival.unregister_entity, Process.is_monitored, hm, hres,
      Arrival.leave]

theorem Arrival.erase_all_spec (sim : Sim) (fuel : Nat) : ∀ a : Arrival,
    releasing sim a.resources → a.resources.length ≤ fuel →
    ∃ out, Arrival.erase_all sim fuel a = some out ∧
      out.self.releasedFrom a ∧
      out.val = a.resources.any (fun r => (sim.resource r).erase_result) ∧
      out.calls.filter Call.isErase = a.resources.map (fun r => Call.resource_erase r a.id false) ∧
      (∀ c ∈ out.calls, c.isErase = true ∨ c.isRelease = true) ∧
      (a.mon ≠ 0 → ∀ r ∈ a.resources,
        ∃ t u, Call.record_release a.name t u (sim.resource r).name ∈ out.calls) := by
  induction fuel with
  | zero =>
    intro a _ hlen
    have hnil : a.resources = [] := List.eq_nil_of_length_eq_zero (by omega)
    refine ⟨{ val := false, self := a, calls := [] }, ?_, ?_, ?_, ?_, ?_, ?_⟩
    · simp [Arrival.erase_all, hnil]
    · exact ⟨hnil, rfl, rfl, rfl, rfl, rfl⟩
    · simp [hnil]
    · simp [hnil]
    · simp
    · simp [hnil]
  | succ fuel ih =>
    intro a hco hlen
    cases hres : a.resources with
    | nil =>
      refine ⟨{ val := false, self := a, calls := [] }, ?_, ?_, ?_, ?_, ?_, ?_⟩
      · simp [Arrival.erase_all, hres]
      · exact ⟨hres, rfl, rfl, rfl, rfl, rfl⟩
      · simp
      · simp
      · simp
      · simp
    | cons r rs =>
      have hr : (sim.resource r).erase_unregisters = true := hco r (by simp [hres])
      obtain ⟨e1, e2, e3, e4, e5, e6, e7, e8⟩ := Resource.erase_head sim a r rs hres hr
      have hco2 : releasing sim (Resource.erase sim r false a).self.resources := by
        rw [e2]
        intro x hx
        exact hco x (by simp [hres, hx])
      have hlen2 : (Resource.erase sim r false a).self.resources.length ≤ fuel := by
        rw [e2]
        rw [hres] at hlen
        simpa using hlen
      obtain ⟨out, h1, h2, h3, h4, h5, h6⟩ := ih (Resource.erase sim r false a).self hco2 hlen2
      refine ⟨{ val := (Resource.erase sim r false a).val || out.val, self := out.self
                calls := (Resource.erase sim r false a).calls ++ out.calls }, ?_, ?_, ?_, ?_, ?_, ?_⟩
      · simp [Arrival.erase_all, hres, h1]
      · obtain ⟨g1, g2, g3, g4, g5, g6⟩ := h2
        exact ⟨g1, g2.trans e3, g3.trans e4, g4.trans e5, g5.trans e6, g6.trans e7⟩
      · simp [h3, e1, e2]
      · have hid : (Resource.erase sim r false a).self.id = a.id := by rw [e3]
        rw [List.filter_append, h4, e8, e2, hid]
        by_cases hm : a.mon = 0 <;> simp [hm, List.filter_cons, Call.isErase]
      · intro c hc
        rw [List.mem_append] at hc
        rcases hc with hc | hc
        · rw [e8] at hc
          by_cases hm : a.mon = 0
          · simp [hm] at hc
            subst hc
            exact Or.inl rfl
          · simp [hm] at hc
            rcases hc with rfl | rfl
            · exact Or.inl rfl
            · exact Or.inr rfl
        · exact h5 c hc
      · intro hm x hx
        simp only [List.mem_cons] at hx
        rcases hx with rfl | hx
        · refine ⟨(a.restime.at (sim.resource x).name).start,
            (a.restime.at (sim.resource x).name).activity, ?_⟩
          show _ ∈ (Resource.erase sim x false a).calls ++ out.calls
          rw [e8]
          simp only [hm, ne_eq, not_false_eq_true, if_true]
          simp
        · have hm2 : (Resource.erase sim r false a).self.mon ≠ 0 := by rw [e3]; exact hm
          obtain ⟨t, u, htu⟩ := h6 hm2 x (by rw [e2]; exact hx)
          have hn : (Resource.erase sim r false a).self.name = a.name := by rw [e3]
          rw [hn] at htu
          exact ⟨t, u, List.mem_append_right _ htu⟩

/-! ### Arrival::renege -/

theorem Arrival.unwind_frame (sim : Sim) (a : Arrival) :
    (a.unwind sim).resources = a.resources ∧ (a.unwind sim).toProcess = a.toProcess ∧
    (a.unwind sim).activity = a.activity ∧ (a.unwind sim).order = a.order ∧
    (a.unwind sim).timer = a.timer ∧ (a.unwind sim).restime = a.restime := by
  simp only [Arrival.unwind]
  split <;> exact ⟨rfl, rfl, rfl, rfl, rfl, rfl⟩

theorem Arrival.deactivate_frame (a : Arrival) :
    a.deactivate.self.resources = a.resources ∧ a.deactivate.self.mon = a.mon ∧
    a.deactivate.self.name = a.name ∧ a.deactivate.self.id = a.id ∧
    a.deactivate.self.priority = a.priority ∧
    (∀ c ∈ a.deactivate.calls, c = Call.unschedule a.id) := by
  cases h : a.active <;> simp [Arrival.deactivate, Process.deactivate, h]

theorem Arrival.renege_deactivate_frame (a : Arrival) (ret : Bool) :
    (a.renege_deactivate ret).self.resources = a.resources ∧
    (a.renege_deactivate ret).self.mon = a.mon ∧
    (a.renege_deactivate ret).self.name = a.name ∧
    (a.renege_deactivate ret).self.id = a.id ∧
    (a.renege_deactivate ret).self.priority = a.priority ∧
    (∀ c ∈ (a.renege_deactivate ret).calls, c = Call.unschedule a.id) ∧
    ((a.renege_deactivate ret).val.isSome = !ret) := by
  cases ret
  · obtain ⟨h1, h2, h3, h4, h5, h6⟩ := Arrival.deactivate_frame a
    exact ⟨h1, h2, h3, h4, h5, h6, rfl⟩
  · exact ⟨rfl, rfl, rfl, rfl, rfl, by simp [Arrival.renege_deactivate], rfl⟩

theorem Arrival.terminate_nil (sim : Sim) (a : Arrival) (finished : Bool)
    (h : a.resources = []) :
    a.terminate sim finished false =
      { self := a.unset_remaining
        calls := if 1 ≤ a.mon then
            [Call.record_end a.name a.lifetime.start a.unset_remaining.lifetime.activity finished]
          else []
        deleted := true } := by
  simp [Arrival.terminate, h, Arrival.terminate_loop, Process.is_monitored]
  rfl

theorem Arrival.renege_nil (fuel : Nat) (sim : Sim) (a : Arrival) (next : Option Ref)
    (l : Ret Bool Arrival)
    (h1 : Arrival.erase_all sim fuel (Arrival.unwind sim { a with timer := none }) = some l) :
    a.renege fuel sim [] next = some
      { self := ((l.self.renege_deactivate l.val).self.renege_continue sim next).1.self
        detached := false
        batches := []
        calls := l.calls ++ (l.self.renege_deactivate l.val).calls ++
          ((l.self.renege_deactivate l.val).self.renege_continue sim next).1.calls
        deleted := ((l.self.renege_deactivate l.val).self.renege_continue sim next).1.deleted
        deactivated := (l.self.renege_deactivate l.val).val
        finished := ((l.self.renege_deactivate l.val).self.renege_continue sim next).2
        undefined :=
          ((l.self.renege_deactivate l.val).self.renege_continue sim next).1.undefined } := by
  simp [Arrival.renege, parentPermanent, h1]

/-- C7: an arrival in no batch whose resources all release it when their
`erase` is called, with enough fuel for one iteration per held resource:
`renege(NULL)` returns; it calls `erase(this)` once on every held resource, in
order, and no other `erase`; when the arrival is monitored every held resource
records a release; the arrival then holds nothing and is terminated with
`finished = false` and destroyed; no leak warning is emitted; a monitored
arrival gets its end-of-life record with `finished = false` and nobody gets one
with `finished = true`. -/
theorem C7_renege_null (fuel : Nat) (sim : Sim) (a : Arrival)
    (hco : releasing sim a.resources) (hfuel : a.resources.length ≤ fuel) :
    ∃ out, a.renege fuel sim [] none = some out ∧
      out.calls.filter Call.isErase = a.resources.map (fun r => Call.resource_erase r a.id false) ∧
      (a.mon ≠ 0 → ∀ r ∈ a.resources,
        ∃ t u, Call.record_release a.name t u (sim.resource r).name ∈ out.calls) ∧
      out.self.resources = [] ∧
      out.finished = some false ∧ out.deleted = true ∧
      (∀ x y, Call.warning x y ∉ out.calls) ∧
      (1 ≤ a.mon → ∃ t u, Call.record_end a.name t u false ∈ out.calls) ∧
      (∀ x t u, Call.record_end x t u true ∉ out.calls) := by
  obtain ⟨f1, f2, -, -, -, -⟩ := Arrival.unwind_frame sim { a with timer := none }
  obtain ⟨l, h1, h2, -, h4, h5, h6⟩ :=
    Arrival.erase_all_spec sim fuel (Arrival.unwind sim { a with timer := none })
      (by rw [f1]; exact hco) (by rw [f1]; exact hfuel)
  obtain ⟨g1, g2, -, -, -, -⟩ := h2
  have hmon : (Arrival.unwind sim { a with timer := none }).mon = a.mon := by rw [f2]
  have hname : (Arrival.unwind sim { a with timer := none }).name = a.name := by rw [f2]
  have hid : (Arrival.unwind sim { a with timer := none }).id = a.id := by rw [f2]
  rw [f1, hid] at h4
  rw [hmon, f1, hname] at h6
  obtain ⟨d1, d2, d3, d4, -, d6, -⟩ := Arrival.renege_deactivate_frame l.self l.val
  have hdres : (l.self.renege_deactivate l.val).self.resources = [] := by rw [d1, g1]
  have hlmon : l.self.mon = a.mon := by rw [g2, f2]
  have hlname : l.self.name = a.name := by rw [g2, f2]
  have hterm := Arrival.terminate_nil sim (l.self.renege_deactivate l.val).self false hdres
  rw [d2, d3, hlmon, hlname] at hterm
  refine ⟨_, Arrival.renege_nil fuel sim a none l h1, ?_, ?_, ?_, rfl, ?_, ?_, ?_, ?_⟩
  · simp only [Arrival.renege_continue, hterm, List.filter_append, h4]
    have hd : List.filter Call.isErase (l.self.renege_deactivate l.val).calls = [] := by
      rw [List.filter_eq_nil_iff]
      intro c hc
      rw [d6 c hc]
      simp [Call.isErase]
    rw [hd]
    by_cases hm : 1 ≤ a.mon <;> simp [hm, Call.isErase]
  · intro hm r hr
    obtain ⟨t, u, htu⟩ := h6 hm r hr
    exact ⟨t, u, by simp [htu]⟩
  · simp only [Arrival.renege_continue, hterm]
    simp [Arrival.unset_remaining, Arrival.set_remaining, Arrival.update_activity, hdres]
  · simp only [Arrival.renege_continue, hterm]
  · intro x y hmem
    simp only [Arrival.renege_continue, hterm, List.mem_append] at hmem
    rcases hmem with (hmem | hmem) | hmem
    · rcases h5 _ hmem with h | h <;> simp [Call.isErase, Call.isRelease] at h
    · have := d6 _ hmem
      simp at this
    · by_cases hm : 1 ≤ a.mon <;> simp [hm] at hmem
  · intro hm
    refine ⟨(l.self.renege_deactivate l.val).self.lifetime.start,
      (l.self.renege_deactivate l.val).self.unset_remaining.lifetime.activity, ?_⟩
    simp only [Arrival.renege_continue, hterm, hm, if_true]
    simp
  · intro x t u hmem
    simp only [Arrival.renege_continue, hterm, List.mem_append] at hmem
    rcases hmem with (hmem | hmem) | hmem
    · rcases h5 _ hmem with h | h <;> simp [Call.isErase, Call.isRelease] at h
    · have := d6 _ hmem
      simp at this
    · by_cases hm : 1 ≤ a.mon <;> simp [hm] at hmem

/-- C7 at an arrival holding two resources. -/
theorem C7_renege_null_witness :
    ∃ out, (exampleArrival true [1, 2]).renege 2 (exampleSim 0) [] none = some out ∧
      out.calls.filter Call.isErase =
        [Call.resource_erase 1 5 false, Call.resource_erase 2 5 false] ∧
      out.self.resources = [] ∧ out.finished = some false ∧ out.deleted = true := by
  obtain ⟨out, h1, h2, -, h4, h5, h6, -⟩ :=
    C7_renege_null 2 (exampleSim 0) (exampleArrival true [1, 2]) (fun _ _ => rfl) (by decide)
  exact ⟨out, h1, h2, h4, h5, h6⟩

/-! ### Batched::erase returns -/

/-- C20 fails at a manager with one value, one duration and a period that is
not negative: its index is in bounds at entry, it applies its value, wraps the
index to 1, which is the length, and reads `duration[1]` out of bounds for the
reactivation. -/
theorem C20_single_periodic_out_of_bounds :
    exampleSingleManager.value.length = exampleSingleManager.duration.length ∧
    exampleSingleManager.index < exampleSingleManager.duration.length ∧
    exampleSingleManager.value[exampleSingleManager.index]? = some 10 ∧
    ¬ (1 < exampleSingleManager.duration.length) ∧
    Manager.activate { exampleSingleManager with index := 1 } = none ∧
    exampleSingleManager.run = none := by
  decide

/-- C20 away from the failing case: for a manager with as many values as
durations and its index in bounds at entry, the read `value[index]` is in
bounds; and when there are at least two entries or the period is negative, `Manager::run` returns (no read is
out of bounds), leaves the sequences as they were, and whenever it reactivates
the manager the index it leaves behind is in bounds again, so that the duration
read for the reactivation and the value read of the next run are in bounds. -/
theorem C20_index_safety (m : Manager)
    (hlen : m.value.length = m.duration.length) (hi : m.index < m.duration.length) :
    (∃ v, m.value[m.index]? = some v) ∧
    (2 ≤ m.duration.length ∨ m.period < 0 →
      ∃ r, m.run = some r ∧ r.self.value = m.value ∧ r.self.duration = m.duration ∧
        ((∃ d p, Call.schedule d m.id p ∈ r.calls) →
          r.self.index < m.duration.length ∧
          (∃ d, r.self.duration[r.self.index]? = some d) ∧
          (∃ v, r.self.value[r.self.index]? = some v))) := by
  have hv : m.index < m.value.length := by omega
  refine ⟨⟨_, List.getElem?_eq_getElem hv⟩, fun h => ?_⟩
  by_cases hlast : m.index + 1 = m.duration.length
  · by_cases hp : m.period < 0
    · refine ⟨_, Manager.run_last_stop m hlen hlast hp, rfl, rfl, ?_⟩
      rintro ⟨d, p, hmem⟩
      simp at hmem
    · have h2 : 2 ≤ m.duration.length := by
        rcases h with h | h
        · exact h
        · exact absurd h hp
      refine ⟨_, Manager.run_last_wrap m hlen hlast (by omega) h2, rfl, rfl, fun _ => ?_⟩
      have h1 : 1 < m.duration.length := by omega
      have h1v : 1 < m.value.length := by omega
      exact ⟨h1, ⟨_, List.getElem?_eq_getElem h1⟩, ⟨_, List.getElem?_eq_getElem h1v⟩⟩
  · have hin : m.index + 1 < m.duration.length := by omega
    have hinv : m.index + 1 < m.value.length := by omega
    refine ⟨_, Manager.run_inner m hlen hin, rfl, rfl, fun _ => ?_⟩
    exact ⟨hin, ⟨_, List.getElem?_eq_getElem hin⟩, ⟨_, List.getElem?_eq_getElem hinv⟩⟩

/-- Index safety at the manager of the worked example with a period that is
not negative, entered at its last index: it is reactivated with index 1. -/
theorem C20_index_safety_witness :
    ∃ r, Manager.run { exampleManager 0 with index := 2 } = some r ∧ r.self.index = 1 := by
  obtain ⟨r, h1, -, -, h4⟩ :=
    (C20_index_safety { exampleManager 0 with index := 2 } (by decide) (by decide)).2
      (Or.inl (by decide))
  refine ⟨r, h1, ?_⟩
  have h5 := h1
  rw [show Manager.run { exampleManager 0 with index := 2 } = some
      { val := (), self := { exampleManager 0 with index := 1, active := true }
        calls := [Call.set "capacity" 30, Call.schedule 5 1 0] } by decide] at h5
  cases h5
  rfl

/-! ### Arrival::renege from a permanent batch -/

/-- C14: for an arrival whose parent batch is permanent and any `next`, null
or not, `renege(next)` returns having cleared the reneging timer and nothing
else: the arrival is otherwise as it was (resources, busy-until, remaining
time, activity pointer, `active`), it is not detached, the batches are
untouched (the child list keeps the arrival, `Batched::erase` is not called),
no call at all is made (no resource erase, nothing scheduled or unscheduled),
`deactivate` and `terminate` are not called and the arrival is not destroyed.
This needs no fuel. -/
theorem C14_renege_permanent (fuel : Nat) (sim : Sim) (a : Arrival) (b : Batched)
    (rest : List Batched) (next : Option Ref) (hb : b.permanent = true) :
    a.renege fuel sim (b :: rest) next = some
      { self := { a with timer := none }
        detached := false
        batches := (b :: rest).map BatchOut.untouched
        calls := []
        deleted := false
        deactivated := none
        finished := none } ∧
    ({ a with timer := none } : Arrival).resources = a.resources ∧
    ({ a with timer := none } : Arrival).lifetime = a.lifetime ∧
    ({ a with timer := none } : Arrival).activity = a.activity ∧
    ({ a with timer := none } : Arrival).active = a.active ∧
    ((b :: rest).map BatchOut.untouched).map (fun o => o.self.arrivals) =
      (b :: rest).map (fun x => x.arrivals) := by
  refine ⟨?_, rfl, rfl, rfl, rfl, ?_⟩
  · simp [Arrival.renege, parentPermanent, Batched.is_permanent, hb]
  · simp [BatchOut.untouched, Function.comp]

/-- C14 at an arrival holding a resource, child of a permanent batch, with a
non-null `next` and no fuel: only the timer changes and no call is made. -/
theorem C14_renege_permanent_witness :
    (exampleArrival true [2]).renege 0 (exampleSim 0)
        [{ exampleBatch (some 3) [5] [1] with permanent := true }] (some 8) = some
      { self := { exampleArrival true [2] with timer := none }
        detached := false
        batches := [BatchOut.untouched { exampleBatch (some 3) [5] [1] with permanent := true }]
        calls := []
        deleted := false
        deactivated := none
        finished := none } :=
  (C14_renege_permanent 0 (exampleSim 0) (exampleArrival true [2])
    { exampleBatch (some 3) [5] [1] with permanent := true } [] (some 8) rfl).1

/-! ### Arrival::run, the activity returns a delay or BLOCK -/

theorem Batched.report_release (sim : Sim) (b : Batched) (c : Arrival) :
    ∀ x ∈ b.report sim c, x.isRelease = true := by
  intro x hx
  simp only [Batched.report, Arrival.leave3, List.mem_flatMap, List.mem_singleton] at hx
  obtain ⟨itr, -, rfl⟩ := hx
  rfl

/-- C18: for a batch with more than one child, or whose parent batch exists
and is permanent, and any arrival `c`: `erase(c)` returns, whatever the fuel;
the batch is as before except that `c` is filtered out of its child list (the
other children keep their order): same resources, same `active`, same
busy-until and remaining time; it is neither detached nor destroyed; the
ancestors are untouched (no `erase` on the parent); `c` is detached; the calls
are, when `c` is monitored, those of `report(c)` on this batch followed by those
of `report(c)` on each ancestor, innermost first, and none when `c` is not
monitored; all of them are release records, so no resource erase and no
unschedule is among them. -/
theorem C18_erase_keeps_shell (fuel : Nat) (sim : Sim) (b : Batched) (ancestors : List Batched)
    (c : Arrival) (h : b.arrivals.length > 1 ∨ parentPermanent ancestors = true) :
    Batched.erase fuel sim (b :: ancestors) c = some
      { chain :=
          { self := { b with arrivals := b.arrivals.filter fun x => x ≠ c.id }
            detached := false, deleted := false } :: ancestors.map BatchOut.untouched
        arrival_detached := true
        calls :=
          if c.mon ≠ 0 then (b :: ancestors).flatMap fun up => up.report sim c else [] } ∧
    (∀ x ∈ (if c.mon ≠ 0 then (b :: ancestors).flatMap fun up => up.report sim c else []),
      x.isRelease = true) ∧
    ({ b with arrivals := b.arrivals.filter fun x => x ≠ c.id } : Batched).toArrival =
      b.toArrival ∧
    (∀ x, x ∈ b.arrivals.filter (fun x => x ≠ c.id) ↔ x ∈ b.arrivals ∧ x ≠ c.id) ∧
    (b.arrivals.filter fun x => x ≠ c.id).Sublist b.arrivals := by
  refine ⟨?_, ?_, rfl, ?_, List.filter_sublist _⟩
  · simp only [Batched.erase, if_pos h, Process.is_monitored]
  · intro x hx
    by_cases hm : c.mon = 0
    · simp [hm] at hx
    · simp only [ne_eq, hm, not_false_eq_true, if_true, List.mem_flatMap] at hx
      obtain ⟨up, -, hup⟩ := hx
      exact Batched.report_release sim up c x hup
  · intro x
    simp [List.mem_filter]

/-- C18 at a batch with two children, one of them the monitored example
arrival: the arrival leaves the child list and gets the release record of the
batch's one resource entry, rebased to the current time. -/
theorem C18_erase_keeps_shell_witness :
    Batched.erase 0 (exampleSim 0) [exampleBatch (some 3) [5, 6] [1]] (exampleArrival true []) =
      some
        { chain := [{ self := exampleBatch (some 3) [6] [1], detached := false, deleted := false }]
          arrival_detached := true
          calls := [Call.record_release "arrival0" 3 (-1) "res1"] } :=
  (C18_erase_keeps_shell 0 (exampleSim 0) (exampleBatch (some 3) [5, 6] [1]) []
    (exampleArrival true []) (Or.inl (by decide))).1.trans (by decide)

/-! ### Arrival::interrupt -/

theorem Arrival.deactivate_eq (a : Arrival) :
    a.deactivate =
      { val := a.active, self := { a with active := false }
        calls := if a.active then [Call.unschedule a.id] else [] } := by
  cases h : a.active
  · simp only [Arrival.deactivate, Process.deactivate, h]
    have : a = { a with active := false } := by
      cases a with
      | mk p o act l r rt t =>
        cases p
        simp only at h
        subst h
        rfl
    simp
    exact congrArg Arrival.toProcess this
  · simp [Arrival.deactivate, Process.deactivate, h]

/-- C19: an arrival whose busy-until is strictly before the current time is
only deactivated by `interrupt()` (unscheduled and `active = false` if it was
active, no call otherwise): activity pointer, busy-until, remaining time and
accumulated activity time stay as they were. In general, whenever `interrupt()`
returns, the activity pointer differs from what it was only if busy-until was
not in the past, the remaining time after `unset_busy` is not zero and the
restart policy allows resumption; and when these three hold for an arrival at
activity `act`, the pointer becomes the activity before `act`. -/
theorem C19_interrupt (sim : Sim) (a : Arrival) :
    (a.lifetime.busy_until < sim.now →
      a.interrupt sim = some
        { val := (), self := { a with active := false }
          calls := if a.active then [Call.unschedule a.id] else [] }) ∧
    (∀ r, a.interrupt sim = some r → r.self.activity ≠ a.activity →
      ¬ a.lifetime.busy_until < sim.now ∧
      (a.unset_busy sim.now).lifetime.remaining ≠ 0 ∧ a.order.get_restart = true) ∧
    (∀ act, a.activity = some act → ¬ a.lifetime.busy_until < sim.now →
      (a.unset_busy sim.now).lifetime.remaining ≠ 0 → a.order.get_restart = true →
      ∃ r, a.interrupt sim = some r ∧ r.self.activity = (sim.activity act).prev ∧
        r.self.lifetime.remaining = 0 ∧ r.self.active = false) := by
  refine ⟨?_, ?_, ?_⟩
  · intro h
    simp only [Arrival.interrupt, Arrival.deactivate_eq, h, if_true]
  · intro r hr hne
    simp only [Arrival.interrupt, Arrival.deactivate_eq] at hr
    by_cases h : a.lifetime.busy_until < sim.now
    · simp only [h, if_true, Option.some.injEq] at hr
      subst hr
      exact absurd rfl hne
    · simp only [h, if_false] at hr
      refine ⟨h, ?_⟩
      by_contra hcon
      have hc : ¬ ((Arrival.unset_busy { a with active := false } sim.now).lifetime.remaining ≠ 0 ∧
          (Arrival.unset_busy { a with active := false } sim.now).order.get_restart = true) := by
        intro hc
        exact hcon hc
      rw [if_neg hc] at hr
      simp only [Option.some.injEq] at hr
      subst hr
      exact absurd rfl hne
  · intro act hact h hrem hres
    have hc : (Arrival.unset_busy { a with active := false } sim.now).lifetime.remaining ≠ 0 ∧
        (Arrival.unset_busy { a with active := false } sim.now).order.get_restart = true :=
      ⟨hrem, hres⟩
    have hact2 : (Arrival.unset_remaining
        (Arrival.unset_busy { a with active := false } sim.now)).activity = some act := hact
    refine ⟨{ val := ()
              self := { Arrival.unset_remaining
                          (Arrival.unset_busy { a with active := false } sim.now) with
                        activity := (sim.activity act).prev }
              calls := if a.active then [Call.unschedule a.id] else [] }, ?_, rfl, rfl, rfl⟩
    simp only [Arrival.interrupt, Arrival.deactivate_eq, h, if_false, if_pos hc]
    rw [hact2]

/-- C19 at an active arrival that was busy until 8, interrupted at time 10: it
is unscheduled and made inactive, nothing else changes. -/
theorem C19_interrupt_witness :
    examplePastArrival.interrupt (exampleSim 0) = some
      { val := (), self := { examplePastArrival with active := false }
        calls := [Call.unschedule 5] } :=
  (C19_interrupt (exampleSim 0) examplePastArrival).1 (by decide)

/-! ### Arrival::reset and the shared clone counter -/

theorem resetAll_spec (sibs : List Arrival) : ∀ v : Int, (sibs.length : Int) ≤ v →
    ∃ outs, resetAll sibs (some v) = some outs ∧
      outs.map (fun o => o.clones) = (List.range sibs.length).map (counterAfter v) ∧
      outs.map (fun o => o.freed) =
        (List.range sibs.length).map (fun i : Nat => decide (v - 1 - (i : Int) = 0)) ∧
      outs.map (fun o => o.calls) = sibs.map (fun a => [Call.unregister_arrival a.id]) := by
  induction sibs with
  | nil => intro v _; exact ⟨[], rfl, rfl, rfl, rfl⟩
  | cons a rest ih =>
    intro v hv
    simp only [List.length_cons, Nat.cast_add, Nat.cast_one] at hv
    by_cases h0 : v - 1 = 0
    · have hrest : rest = [] := by
        apply List.eq_nil_of_length_eq_zero
        omega
      subst hrest
      refine ⟨[{ self := a.cancel_timeout, clones := none, freed := true
                 calls := [Call.unregister_arrival a.id] }], ?_, ?_, ?_, ?_⟩
      · simp [resetAll, Arrival.reset, h0]
      · simp [counterAfter, h0, List.range_succ]
      · simp [h0, List.range_succ]
      · simp
    · obtain ⟨outs, h1, h2, h3, h4⟩ := ih (v - 1) (by omega)
      refine ⟨{ self := a.cancel_timeout, clones := some (v - 1), freed := false
                calls := [Call.unregister_arrival a.id] } :: outs, ?_, ?_, ?_, ?_⟩
      · simp [resetAll, Arrival.reset, h0, h1]
      · simp only [List.map_cons, h2, List.length_cons, List.range_succ_eq_map, List.map_map]
        congr 1
        · simp [counterAfter, h0]
        · apply List.map_congr_left
          intro i _
          simp only [Function.comp, counterAfter, Nat.succ_eq_add_one, Nat.cast_add,
            Nat.cast_one]
          have e : v - 1 - 1 - (i : Int) = v - 1 - ((i : Int) + 1) := by omega
          rw [e]
      · simp only [List.map_cons, h3, List.length_cons, List.range_succ_eq_map, List.map_map]
        congr 1
        · simp [h0]
        · apply List.map_congr_left
          intro i _
          simp only [Function.comp, Nat.succ_eq_add_one, Nat.cast_add, Nat.cast_one]
          have e : v - 1 - 1 - (i : Int) = v - 1 - ((i : Int) + 1) := by omega
          rw [e]
      · simp [h4]

/-- C11: `N >= 1` siblings share a clone counter that holds `N` and are reset
in any order (any list of `N` arrivals): no reset touches a freed counter (the
series returns); reset number `i` leaves the counter at `N - 1 - i`, one less
than before, so each sibling decrements it exactly once; exactly the `N`-th
reset frees it, and none before; each reset unregisters its own arrival; and
every other order of the same siblings gives the same series of counter values
and the same single free. -/
theorem C11_clone_counter (sibs : List Arrival) (hne : sibs ≠ []) :
    ∃ outs, resetAll sibs (some (sibs.length : Int)) = some outs ∧
      outs.length = sibs.length ∧
      outs.map (fun o => o.clones) =
        (List.range sibs.length).map (fun i : Nat =>
          if i + 1 = sibs.length then none else some ((sibs.length : Int) - 1 - (i : Int))) ∧
      outs.map (fun o => o.freed) =
        (List.range sibs.length).map (fun i : Nat => decide (i + 1 = sibs.length)) ∧
      (outs.filter fun o => o.freed).length = 1 ∧
      outs.map (fun o => o.calls) = sibs.map (fun a => [Call.unregister_arrival a.id]) ∧
      (∀ sibs2 : List Arrival, sibs2.Perm sibs →
        ∃ outs2, resetAll sibs2 (some (sibs.length : Int)) = some outs2 ∧
          outs2.map (fun o => o.clones) = outs.map (fun o => o.clones) ∧
          outs2.map (fun o => o.freed) = outs.map (fun o => o.freed)) := by
  obtain ⟨outs, h1, h2, h3, h4⟩ := resetAll_spec sibs (sibs.length : Int) (le_refl _)
  have hlen : outs.length = sibs.length := by
    have := congrArg List.length h2
    simpa using this
  have hpos : 0 < sibs.length := List.length_pos.mpr hne
  have e : ∀ i : Nat, ((sibs.length : Int) - 1 - (i : Int) = 0) ↔ (i + 1 = sibs.length) := by
    intro i; omega
  refine ⟨outs, h1, hlen, ?_, ?_, ?_, h4, ?_⟩
  · rw [h2]
    apply List.map_congr_left
    intro i _
    simp only [counterAfter, e]
  · rw [h3]
    apply List.map_congr_left
    intro i _
    simp only [e]
  · have hf : (outs.filter fun o => o.freed).length =
        ((outs.map fun o => o.freed).filter id).length := by
      rw [List.filter_map]
      simp [Function.comp]
    rw [hf, h3, List.filter_map, List.length_map]
    have hrw : List.filter (id ∘ fun i : Nat => decide ((sibs.length : Int) - 1 - (i : Int) = 0))
        (List.range sibs.length) = [sibs.length - 1] := by
      have hrange : List.range sibs.length =
          List.range (sibs.length - 1) ++ [sibs.length - 1] := by
        have : sibs.length = (sibs.length - 1) + 1 := by omega
        conv_lhs => rw [this, List.range_succ]
      rw [hrange, List.filter_append]
      have hnil : List.filter
          (id ∘ fun i : Nat => decide ((sibs.length : Int) - 1 - (i : Int) = 0))
          (List.range (sibs.length - 1)) = [] := by
        rw [List.filter_eq_nil_iff]
        intro i hi
        rw [List.mem_range] at hi
        simp only [Function.comp, id, decide_eq_true_eq]
        omega
      rw [hnil]
      have hlast : ((sibs.length : Int) - 1 - ((sibs.length - 1 : Nat) : Int) = 0) := by omega
      simp [List.filter_cons, hlast]
    rw [hrw]
    rfl
  · intro sibs2 hperm
    have hl2 : sibs2.length = sibs.length := hperm.length_eq
    obtain ⟨outs2, g1, g2, g3, -⟩ := resetAll_spec sibs2 (sibs.length : Int) (by omega)
    exact ⟨outs2, g1, by rw [g2, h2, hl2], by rw [g3, h3, hl2]⟩

/-- C11 for three siblings in all six orders: the counter goes 2, 1, freed, and
only the third reset frees it. -/
theorem C11_clone_counter_witness :
    ([exampleSibling 1, exampleSibling 2, exampleSibling 3].permutations.all fun l =>
      decide (counterTrace l 3 = some [(some 2, false), (some 1, false), (none, true)]))
      = true := by
  rw [List.all_eq_true]
  intro l hl
  rw [decide_eq_true_eq]
  have hlen : l.length = 3 := (List.mem_permutations.mp hl).length_eq
  obtain ⟨outs, h1, -, h2, h3, -⟩ :=
    C11_clone_counter l (by intro h; rw [h] at hlen; simp at hlen)
  rw [hlen] at h1 h2 h3
  have hz : outs.map (fun o => (o.clones, o.freed)) =
      List.zip (outs.map fun o => o.clones) (outs.map fun o => o.freed) := by
    rw [List.zip_map']
  simp only [counterTrace]
  rw [show ((3 : Int)) = ((3 : Nat) : Int) from rfl, h1, Option.map_some', hz, h2, h3]
  decide

/-! ### The flag `active` and the outstanding event -/

/-- C12 fails at `Manager::run`: when the event of a manager with a negative
period fires at its last index, `run` applies the value and returns without
reactivating and without clearing `active`: no event is outstanding and the
flag is still true. The same shows at the end of the simulated example. The
generator, in the corresponding situation (a negative sample), clears the flag. -/
theorem C12_manager_stop_keeps_active :
    (exampleLastManager.run).map
        (fun r => (r.self.active, outstanding exampleLastManager.id false r.calls, r.calls)) =
      some (true, false, [Call.set "capacity" 30]) ∧
    ((exampleManager (-1)).simulate 5).map (fun s => (s.mgr.active, s.pending)) =
      some (true, none) ∧
    ((Generator.run exactOps (exampleGenerator 0) 0 (fun i => 100 + i) [-1]).self.active,
      outstanding 7 false
        ((Generator.run exactOps (exampleGenerator 0) 0 (fun i => 100 + i) [-1]).calls.map
          GenCall.toCall)) =
      (false, false) := by
  decide

theorem outstanding_append (who : Ref) (xs ys : List Call) : ∀ before : Bool,
    outstanding who before (xs ++ ys) = outstanding who (outstanding who before xs) ys := by
  induction xs with
  | nil => intro b; rfl
  | cons x xs ih =>
    intro b
    cases x <;> simp [outstanding, ih]

theorem Arrival.before_activity_id (sim : Sim) (a : Arrival) :
    (a.before_activity sim).id = a.id := by
  simp only [Arrival.before_activity]
  split <;> rfl

/-! ### Arrival::terminate, the loop over the held resources -/

theorem Resource.erase_retaining (sim : Sim) (r : Ref) (force : Bool) (a : Arrival)
    (h : (sim.resource r).erase_unregisters = false) :
    Resource.erase sim r force a =
      { val := (sim.resource r).erase_result, self := a
        calls := [Call.resource_erase r a.id force] } := by
  simp [Resource.erase, h]

theorem Arrival.terminate_loop_invalid (sim : Sim) (a : Arrival) : ∀ rs : List Ref,
    (∀ r ∈ rs, r ∈ a.resources) → (∃ r ∈ rs, (sim.resource r).erase_unregisters = true) →
    (Arrival.terminate_loop sim rs a).val = true := by
  intro rs
  induction rs with
  | nil => intro _ h; obtain ⟨r, hr, -⟩ := h; cases hr
  | cons r rs ih =>
    intro hsub hex
    by_cases hu : (sim.resource r).erase_unregisters = true
    · have hmem : r ∈ a.resources := hsub r (List.mem_cons_self r rs)
      have hne : (Resource.erase sim r true a).self.resources ≠ a.resources := by
        intro heq
        have hlen := congrArg List.length heq
        by_cases hm : a.mon = 0 <;>
          simp [Resource.erase, hu, Arrival.unregister_entity, Process.is_monitored, hm,
            Arrival.leave, List.length_erase_of_mem hmem] at hlen <;>
          have := List.length_pos_of_mem hmem <;> omega
      simp only [Arrival.terminate_loop, hne, ne_eq, not_false_eq_true, if_true]
    · have hu' : (sim.resource r).erase_unregisters = false := by simpa using hu
      obtain ⟨x, hx, hxu⟩ := hex
      have hx' : x ∈ rs := by
        rcases List.mem_cons.1 hx with rfl | h
        · exact absurd hxu hu
        · exact h
      simp only [Arrival.terminate_loop, Resource.erase_retaining sim r true a hu', ne_eq,
        not_true_eq_false, if_false]
      exact ih (fun y hy => hsub y (List.mem_cons_of_mem r hy)) ⟨x, hx', hxu⟩

theorem Arrival.terminate_releasing (sim : Sim) (a : Arrival) (finished is_batched : Bool)
    (h : ∃ r ∈ a.resources, (sim.resource r).erase_unregisters = true) :
    (a.terminate sim finished is_batched).undefined = true ∧
    (a.terminate sim finished is_batched).deleted = false := by
  have hv := Arrival.terminate_loop_invalid sim a a.resources (fun r hr => hr) h
  simp [Arrival.terminate, hv]

/-! ### Batched::terminate -/

theorem firstNegative_cons_neg {τ : Type} (ops : DoubleOps τ) (d : τ) (ds : List τ)
    (h : ops.isNeg d = true) : firstNegative ops (d :: ds) = 0 := by
  simp [firstNegative, List.findIdx_cons, h]

theorem firstNegative_cons_nonneg {τ : Type} (ops : DoubleOps τ) (d : τ) (ds : List τ)
    (h : ¬ ops.isNeg d = true) : firstNegative ops (d :: ds) = firstNegative ops ds + 1 := by
  simp [firstNegative, List.findIdx_cons, h]

theorem firstNegative_le {τ : Type} (ops : DoubleOps τ) (ds : List τ) :
    firstNegative ops ds ≤ ds.length := by
  simp [firstNegative, List.findIdx_le_length]

theorem Generator.loop_spec {τ : Type} (ops : DoubleOps τ) (g : Generator) (fa : Int)
    (alloc : Nat → Ref) (ds : List τ) (i : Nat) (delay : τ) (count : Int) :
    Generator.loop ops g fa alloc ds i delay count =
      { stopped := decide (firstNegative ops ds < ds.length)
        delay := (ds.take (firstNegative ops ds)).foldl ops.add delay
        count := nextCount^[firstNegative ops ds] count
        created := (List.range (firstNegative ops ds)).map fun j =>
          { ref := alloc (i + j), name := g.name ++ toString (nextCount^[j] count), mon := g.mon
            order := g.order, first_activity := g.first_activity
            count := nextCount^[j + 1] count }
        calls := Generator.arrivalCalls ops fa alloc ds i delay count (firstNegative ops ds) } := by
  induction ds generalizing i delay count with
  | nil => simp [Generator.loop, firstNegative, Generator.arrivalCalls]
  | cons d ds ih =>
    by_cases h : ops.isNeg d = true
    · simp [Generator.loop, h, firstNegative_cons_neg, Generator.arrivalCalls]
    · rw [Generator.loop, if_neg h]
      simp only [ih, firstNegative_cons_nonneg ops d ds h]
      simp only [List.range_succ_eq_map, List.map_cons, List.map_map, List.take_succ_cons,
        List.foldl_cons, Generator.arrivalCalls, List.flatMap_cons, List.flatMap_map,
        List.length_cons, Process.is_monitored, Function.iterate_succ_apply,
        Function.iterate_zero, id_eq]
      have e1 : ∀ j : Nat, i + 1 + j = i + (j + 1) := fun j => by omega
      simp [Function.comp, e1, Nat.succ_eq_add_one]

theorem Generator.arrivalCalls_succ {τ : Type} (ops : DoubleOps τ) (fa : Int)
    (alloc : Nat → Ref) (ds : List τ) (i : Nat) (delay : τ) (count : Int) (k : Nat) :
    Generator.arrivalCalls ops fa alloc ds i delay count (k + 1) =
      Generator.arrivalCalls ops fa alloc ds i delay count k ++
        [GenCall.register_arrival (alloc (i + k)),
         GenCall.schedule ((ds.take (k + 1)).foldl ops.add delay) (alloc (i + k))
           (if fa ≠ 0 then fa else nextCount^[k + 1] count)] := by
  simp [Generator.arrivalCalls, List.range_succ, List.flatMap_append]

theorem Generator.arrivalCalls_length {τ : Type} (ops : DoubleOps τ) (fa : Int)
    (alloc : Nat → Ref) (ds : List τ) (i : Nat) (delay : τ) (count : Int) (k : Nat) :
    (Generator.arrivalCalls ops fa alloc ds i delay count k).length = 2 * k := by
  induction k with
  | zero => simp [Generator.arrivalCalls]
  | succ k ih => rw [Generator.arrivalCalls_succ, List.length_append, ih]; simp; omega

theorem Generator.arrivalCalls_get {τ : Type} (ops : DoubleOps τ) (fa : Int)
    (alloc : Nat → Ref) (ds : List τ) (i : Nat) (delay : τ) (count : Int) (k : Nat)
    (tl : List (GenCall τ)) (j : Nat) (hj : j < k) :
    (Generator.arrivalCalls ops fa alloc ds i delay count k ++ tl)[2 * j]? =
        some (GenCall.register_arrival (alloc (i + j))) ∧
    (Generator.arrivalCalls ops fa alloc ds i delay count k ++ tl)[2 * j + 1]? =
        some (GenCall.schedule ((ds.take (j + 1)).foldl ops.add delay) (alloc (i + j))
          (if fa ≠ 0 then fa else nextCount^[j + 1] count)) := by
  induction k generalizing tl with
  | zero => omega
  | succ k ih =>
    rw [Generator.arrivalCalls_succ, List.append_assoc]
    by_cases h : j < k
    · exact ih _ h
    · have hjk : j = k := by omega
      subst hjk
      have hl := Generator.arrivalCalls_length ops fa alloc ds i delay count j
      constructor
      · rw [List.getElem?_append_right (by omega)]
        simp [hl]
      · rw [List.getElem?_append_right (by omega)]
        simp [hl]

theorem Generator.run_stopped {τ : Type} (ops : DoubleOps τ) (g : Generator) (fa : Int)
    (alloc : Nat → Ref) (d : List τ) (hk : firstNegative ops d < d.length) :
    Generator.run ops g fa alloc d =
      { self := { g with count := nextCount^[firstNegative ops d] g.count, active := false }
        created := (List.range (firstNegative ops d)).map (fun j =>
          { ref := alloc j, name := g.name ++ toString (nextCount^[j] g.count), mon := g.mon
            order := g.order, first_activity := g.first_activity
            count := nextCount^[j + 1] g.count })
        calls := Generator.arrivalCalls ops fa alloc d 0 ops.zero g.count (firstNegative ops d) } := by
  simp [Generator.run, Generator.loop_spec, hk]

theorem Generator.run_through {τ : Type} (ops : DoubleOps τ) (g : Generator) (fa : Int)
    (alloc : Nat → Ref) (d : List τ) (hk : firstNegative ops d = d.length) :
    Generator.run ops g fa alloc d =
      { self := { g with count := nextCount^[firstNegative ops d] g.count, active := true }
        created := (List.range (firstNegative ops d)).map (fun j =>
          { ref := alloc j, name := g.name ++ toString (nextCount^[j] g.count), mon := g.mon
            order := g.order, first_activity := g.first_activity
            count := nextCount^[j + 1] g.count })
        calls := Generator.arrivalCalls ops fa alloc d 0 ops.zero g.count (firstNegative ops d) ++
          [GenCall.schedule (d.foldl ops.add ops.zero) g.id g.priority] } := by
  simp [Generator.run, Generator.loop_spec, hk]

/-- C2: `Generator::run` on any sampled sequence of doubles creates exactly `k`
arrivals, `k` the index of the first entry for which `x < 0` holds (the length
when there is none), and increments its counter `k` times; the calls it makes
are, for each `i < k` in order, the registration of arrival `i` and its
scheduling at the delay `0 + d[0] + ... + d[i]`, added from left to right as
the loop does; they are followed by nothing when a negative entry exists (the
generator then has `active = false` and is not scheduled) and by one activation
of the generator at delay `0 + d[0] + ... + d[n-1]` when none exists. -/
theorem C2_generator_run {τ : Type} (ops : DoubleOps τ) (g : Generator) (fa : Int)
    (alloc : Nat → Ref) (d : List τ) :
    (Generator.run ops g fa alloc d).created.length = firstNegative ops d ∧
    (Generator.run ops g fa alloc d).created =
      (List.range (firstNegative ops d)).map (fun j =>
        { ref := alloc j, name := g.name ++ toString (nextCount^[j] g.count), mon := g.mon
          order := g.order, first_activity := g.first_activity
          count := nextCount^[j + 1] g.count }) ∧
    (Generator.run ops g fa alloc d).self.count = nextCount^[firstNegative ops d] g.count ∧
    (∀ i, i < firstNegative ops d →
      (Generator.run ops g fa alloc d).calls[2 * i]? =
        some (GenCall.register_arrival (alloc i)) ∧
      (Generator.run ops g fa alloc d).calls[2 * i + 1]? =
        some (GenCall.schedule ((d.take (i + 1)).foldl ops.add ops.zero) (alloc i)
          (if fa ≠ 0 then fa else nextCount^[i + 1] g.count))) ∧
    (firstNegative ops d < d.length →
      (Generator.run ops g fa alloc d).self.active = false ∧
      (Generator.run ops g fa alloc d).calls =
        Generator.arrivalCalls ops fa alloc d 0 ops.zero g.count (firstNegative ops d) ∧
      (Generator.run ops g fa alloc d).calls.length = 2 * firstNegative ops d) ∧
    (firstNegative ops d = d.length →
      (Generator.run ops g fa alloc d).self.active = true ∧
      (Generator.run ops g fa alloc d).calls =
        Generator.arrivalCalls ops fa alloc d 0 ops.zero g.count d.length ++
          [GenCall.schedule (d.foldl ops.add ops.zero) g.id g.priority]) := by
  have hle := firstNegative_le ops d
  by_cases hk : firstNegative ops d < d.length
  · rw [Generator.run_stopped ops g fa alloc d hk]
    refine ⟨by simp, rfl, rfl, ?_,
      fun _ => ⟨rfl, rfl, Generator.arrivalCalls_length ops fa alloc d 0 ops.zero g.count _⟩,
      fun h => by omega⟩
    intro i hi
    have h := Generator.arrivalCalls_get ops fa alloc d 0 ops.zero g.count (firstNegative ops d)
      [] i hi
    simpa using h
  · have hk2 : firstNegative ops d = d.length := by omega
    rw [Generator.run_through ops g fa alloc d hk2]
    refine ⟨by simp, rfl, rfl, ?_, fun h => by omega, fun _ => ⟨rfl, by rw [hk2]⟩⟩
    intro i hi
    have h := Generator.arrivalCalls_get ops fa alloc d 0 ops.zero g.count (firstNegative ops d)
      [GenCall.schedule (d.foldl ops.add ops.zero) g.id g.priority] i hi
    simpa using h

/-- C2, the sampled sequence `[2, 3, -1]` in exact arithmetic: two arrivals,
scheduled at 2 and at 5, the generator inactive and not scheduled. -/
theorem C2_generator_run_witness :
    firstNegative exactOps [2, 3, -1] < [2, 3, -1].length ∧
    (Generator.run exactOps (exampleGenerator 0) 0 (fun i => 100 + i) [2, 3, -1]).self.active
      = false ∧
    (Generator.run exactOps (exampleGenerator 0) 0 (fun i => 100 + i) [2, 3, -1]).calls =
      [GenCall.register_arrival 100, GenCall.schedule 2 100 1,
       GenCall.register_arrival 101, GenCall.schedule 5 101 2] :=
  ⟨by decide,
   ((C2_generator_run exactOps (exampleGenerator 0) 0 (fun i => 100 + i)
      [2, 3, -1]).2.2.2.2.1 (by decide)).1,
   ((C2_generator_run exactOps (exampleGenerator 0) 0 (fun i => 100 + i)
      [2, 3, -1]).2.2.2.2.1 (by decide)).2.1.trans (by decide)⟩

/-- The sampled sequence `[1e16, 1, 1]` under the rounding addition: each
`delay += 1` is absorbed, so that the three arrivals and the generator are all
scheduled at `1e16`, not at the exact sums `1e16 + 1` and `1e16 + 2`. -/
theorem Generator.run_rounded_example :
    (Generator.run roundedOps (exampleGenerator 0) 0 (fun i => 100 + i)
      [10000000000000000, 1, 1]).calls =
      [GenCall.register_arrival 100, GenCall.schedule 10000000000000000 100 1,
       GenCall.register_arrival 101, GenCall.schedule 10000000000000000 101 2,
       GenCall.register_arrival 102, GenCall.schedule 10000000000000000 102 3,
       GenCall.schedule 10000000000000000 7 0] := by
  decide

/-! ### Generator::run, names and priorities -/

theorem digitChar_value (k : Nat) (hk : k < 10) : (Nat.digitChar k).toNat - 48 = k := by
  interval_cases k <;> rfl

theorem readDecimal_toDigitsCore (fuel : Nat) : ∀ (n : Nat) (ds : List Char), n < fuel →
    readDecimal 0 (Nat.toDigitsCore 10 fuel n ds) = readDecimal n ds := by
  induction fuel with
  | zero => intro n ds h; omega
  | succ fuel ih =>
    intro n ds h
    have hmod : n % 10 < 10 := Nat.mod_lt n (by omega)
    have hdm := Nat.div_add_mod n 10
    simp only [Nat.toDigitsCore]
    by_cases h0 : n / 10 = 0
    · simp only [h0, if_true, readDecimal, List.foldl_cons, digitChar_value _ hmod]
      congr 1
      omega
    · simp only [h0, if_false]
      rw [ih (n / 10) _ (by omega)]
      simp only [readDecimal, List.foldl_cons, digitChar_value _ hmod]
      congr 1

theorem readDecimal_toDigits (a : Nat) : readDecimal 0 (Nat.toDigits 10 a) = a := by
  have ha := readDecimal_toDigitsCore (a + 1) a [] (by omega)
  simpa [Nat.toDigits, readDecimal] using ha

theorem toString_nat_data (a : Nat) : (toString a).data = Nat.toDigits 10 a := by
  simp [toString, Nat.repr, List.asString]

theorem toString_nat_injective (a b : Nat) (h : toString a = toString b) : a = b := by
  have h1 : (Nat.toDigits 10 a) = (Nat.toDigits 10 b) := by
    rw [← toString_nat_data, ← toString_nat_data, h]
  have ha := readDecimal_toDigits a
  rw [h1, readDecimal_toDigits] at ha
  exact ha.symm

theorem toString_nat_ne_minus (a b : Nat) : toString a ≠ "-" ++ toString b := by
  intro h
  have h1 : Nat.toDigits 10 a = '-' :: Nat.toDigits 10 b := by
    have := congrArg String.data h
    simpa [toString_nat_data] using this
  have ha := readDecimal_toDigits a
  rw [h1] at ha
  have hb : readDecimal 0 ('-' :: Nat.toDigits 10 b) = readDecimal 0 (Nat.toDigits 10 b) := by
    simp only [readDecimal, List.foldl_cons]
    rfl
  rw [hb, readDecimal_toDigits] at ha
  subst ha
  have := congrArg List.length h1
  simp at this

theorem toString_int_injective (a b : Int) (h : toString a = toString b) : a = b := by
  cases a with
  | ofNat m =>
    cases b with
    | ofNat n =>
      have : toString m = toString n := h
      rw [toString_nat_injective m n this]
    | negSucc n =>
      have : toString m = "-" ++ toString (n + 1) := h
      exact absurd this (toString_nat_ne_minus m (n + 1))
  | negSucc m =>
    cases b with
    | ofNat n =>
      have : "-" ++ toString (m + 1) = toString n := h
      exact absurd this.symm (toString_nat_ne_minus n (m + 1))
    | negSucc n =>
      have h2 : "-" ++ toString (m + 1) = "-" ++ toString (n + 1) := h
      have h3 : toString (m + 1) = toString (n + 1) := by
        have := congrArg String.data h2
        simp only [String.data_append] at this
        exact String.ext (List.append_cancel_left this)
      have := toString_nat_injective _ _ h3
      have hmn : m = n := by omega
      rw [hmn]

theorem name_append_injective (name : String) (a b : Int)
    (h : name ++ toString a = name ++ toString b) : a = b := by
  apply toString_int_injective
  have := congrArg String.data h
  simp only [String.data_append] at this
  exact String.ext (List.append_cancel_left this)

theorem nextCount_iterate (c : Int) : ∀ j : Nat, INT_MIN ≤ c → c + j ≤ INT_MAX →
    nextCount^[j] c = c + j := by
  intro j
  induction j generalizing c with
  | zero => intro _ _; simp
  | succ j ih =>
    intro hmin hmax
    simp only [INT_MIN, INT_MAX] at hmin hmax
    have h1 : nextCount c = c + 1 := by
      simp only [nextCount, wrapInt]
      omega
    rw [Function.iterate_succ_apply, h1, ih (c + 1) (by simp only [INT_MIN]; omega)
      (by simp only [INT_MAX]; push_cast at hmax ⊢; omega)]
    push_cast
    omega

theorem Generator.run_created {τ : Type} (ops : DoubleOps τ) (g : Generator) (fa : Int)
    (alloc : Nat → Ref) (d : List τ) :
    (Generator.run ops g fa alloc d).created =
      (List.range (firstNegative ops d)).map (fun j =>
        { ref := alloc j, name := g.name ++ toString (nextCount^[j] g.count), mon := g.mon
          order := g.order, first_activity := g.first_activity
          count := nextCount^[j + 1] g.count }) ∧
    (Generator.run ops g fa alloc d).self.count = nextCount^[firstNegative ops d] g.count ∧
    (Generator.run ops g fa alloc d).self.name = g.name ∧
    (Generator.run ops g fa alloc d).self.mon = g.mon ∧
    (Generator.run ops g fa alloc d).self.order = g.order ∧
    (Generator.run ops g fa alloc d).self.first_activity = g.first_activity ∧
    ∃ tl, (Generator.run ops g fa alloc d).calls =
      Generator.arrivalCalls ops fa alloc d 0 ops.zero g.count (firstNegative ops d) ++ tl := by
  have hle := firstNegative_le ops d
  by_cases hk : firstNegative ops d < d.length
  · rw [Generator.run_stopped ops g fa alloc d hk]
    exact ⟨rfl, rfl, rfl, rfl, rfl, rfl, [], by simp⟩
  · rw [Generator.run_through ops g fa alloc d (by omega)]
    exact ⟨rfl, rfl, rfl, rfl, rfl, rfl, _, rfl⟩

theorem Generator.created_mem {τ : Type} (ops : DoubleOps τ) (g : Generator) (fa : Int)
    (alloc : Nat → Ref) (d : List τ) (x : NewArrival)
    (hx : x ∈ (Generator.run ops g fa alloc d).created) :
    ∃ i, i < firstNegative ops d ∧ x.name = g.name ++ toString (nextCount^[i] g.count) ∧
      x.count = nextCount^[i + 1] g.count := by
  rw [(Generator.run_created ops g fa alloc d).1] at hx
  simp only [List.mem_map, List.mem_range] at hx
  obtain ⟨i, hi, rfl⟩ := hx
  exact ⟨i, hi, rfl, rfl⟩

/-- C16 as stated fails at the end of the range of the 32-bit counter: a
generator whose counter stands at `INT_MAX - 1` and samples `[1, 1]` constructs
its first arrival with the counter value `INT_MAX` and its second with
`INT_MIN`; the counter is `INT_MIN` afterwards, not `c + 2`, and under the
fallback the arrival created later is scheduled with the smaller priority
value. -/
theorem C16_counter_overflow_counterexample :
    (Generator.run exactOps (exampleGenerator 2147483646) 0 (fun i => 100 + i) [1, 1]).self.count
      = -2147483648 ∧
    (Generator.run exactOps (exampleGenerator 2147483646) 0 (fun i => 100 + i)
        [1, 1]).created.map (fun x => (x.name, x.count)) =
      [("gen2147483646", 2147483647), ("gen2147483647", -2147483648)] ∧
    (Generator.run exactOps (exampleGenerator 2147483646) 0 (fun i => 100 + i) [1, 1]).calls =
      [GenCall.register_arrival 100, GenCall.schedule 1 100 2147483647,
       GenCall.register_arrival 101, GenCall.schedule 2 101 (-2147483648),
       GenCall.schedule 2 7 0] := by
  decide

/-- C16 (corrected): for a generator entering `Generator::run` with a counter
`c`, a value of the 32-bit `int` (`INT_MIN ≤ c`), that the `k` increments of
the run do not take beyond `INT_MAX`, `k` the number of leading non-negative
entries of the sample: the `i`-th arrival
created (`i < k`) is named by the generator's name followed by the decimal
numeral of `c + i` and is constructed with the counter value `c + i + 1`; the
generator's counter is `c + k` afterwards; names and counter values of two
arrivals of the same run differ, those of a later arrival being larger, and the
same holds between an arrival of this run and an arrival of the run that
follows when that run does not overflow either; the `i`-th arrival is scheduled
with the priority of the entry activity when that is not zero and with its own
counter value otherwise, so that under the fallback an arrival created earlier
has a strictly smaller priority value. -/
theorem C16_names_and_priorities {τ : Type} (ops : DoubleOps τ) (g : Generator) (fa : Int)
    (alloc : Nat → Ref) (d : List τ)
    (hmin : INT_MIN ≤ g.count) (hmax : g.count + firstNegative ops d ≤ INT_MAX) :
    (Generator.run ops g fa alloc d).self.count = g.count + firstNegative ops d ∧
    (∀ i, i < firstNegative ops d →
      ∃ x, (Generator.run ops g fa alloc d).created[i]? = some x ∧
        x.name = g.name ++ toString (g.count + i) ∧ x.count = g.count + i + 1 ∧
        (Generator.run ops g fa alloc d).calls[2 * i + 1]? =
          some (GenCall.schedule ((d.take (i + 1)).foldl ops.add ops.zero) x.ref
            (if fa ≠ 0 then fa else x.count))) ∧
    (∀ (i j : Nat) (x y : NewArrival), i < j →
      (Generator.run ops g fa alloc d).created[i]? = some x →
      (Generator.run ops g fa alloc d).created[j]? = some y →
      x.name ≠ y.name ∧ x.count < y.count ∧
      (fa = 0 → (if fa ≠ 0 then fa else x.count) < (if fa ≠ 0 then fa else y.count))) ∧
    (∀ (alloc2 : Nat → Ref) (d2 : List τ) (x y : NewArrival),
      g.count + firstNegative ops d + firstNegative ops d2 ≤ INT_MAX →
      x ∈ (Generator.run ops g fa alloc d).created →
      y ∈ (Generator.run ops (Generator.run ops g fa alloc d).self fa alloc2 d2).created →
      x.name ≠ y.name ∧ x.count < y.count) := by
  obtain ⟨hc, hcount, hname, -, -, -, tl, hcalls⟩ := Generator.run_created ops g fa alloc d
  have hit : ∀ j : Nat, j ≤ firstNegative ops d → nextCount^[j] g.count = g.count + j := by
    intro j hj
    exact nextCount_iterate g.count j hmin (by
      have : (j : Int) ≤ (firstNegative ops d : Int) := by exact_mod_cast hj
      omega)
  have hit1 : ∀ j : Nat, j + 1 ≤ firstNegative ops d →
      nextCount^[j + 1] g.count = g.count + j + 1 := by
    intro j hj
    rw [hit (j + 1) hj]
    push_cast
    omega
  have hcount2 : (Generator.run ops g fa alloc d).self.count = g.count + firstNegative ops d := by
    rw [hcount, hit _ (le_refl _)]
  refine ⟨hcount2, ?_, ?_, ?_⟩
  · intro i hi
    refine ⟨{ ref := alloc i, name := g.name ++ toString (g.count + i), mon := g.mon
              order := g.order, first_activity := g.first_activity
              count := g.count + i + 1 }, ?_, rfl, rfl, ?_⟩
    · rw [hc, List.getElem?_map, List.getElem?_range hi]
      simp only [Option.map_some', hit i (by omega), hit1 i (by omega)]
    · rw [hcalls]
      have h := (Generator.arrivalCalls_get ops fa alloc d 0 ops.zero g.count
        (firstNegative ops d) tl i hi).2
      rw [h, hit1 i (by omega)]
      simp
  · intro i j x y hij hx hy
    rw [hc, List.getElem?_map] at hx hy
    have hi : i < firstNegative ops d := by
      by_contra hcon
      rw [List.getElem?_eq_none (by simpa using hcon)] at hx
      simp at hx
    have hj : j < firstNegative ops d := by
      by_contra hcon
      rw [List.getElem?_eq_none (by simpa using hcon)] at hy
      simp at hy
    rw [List.getElem?_range hi] at hx
    rw [List.getElem?_range hj] at hy
    simp only [Option.map_some', Option.some.injEq, hit i (by omega), hit1 i (by omega),
      hit j (by omega), hit1 j (by omega)] at hx hy
    subst hx
    subst hy
    refine ⟨?_, ?_, ?_⟩
    · intro h
      have := name_append_injective g.name _ _ h
      omega
    · show g.count + (i : Int) + 1 < g.count + (j : Int) + 1
      omega
    · intro h0
      simp only [h0, ne_eq, not_true_eq_false, if_false]
      show g.count + (i : Int) + 1 < g.count + (j : Int) + 1
      omega
  · intro alloc2 d2 x y hmax2 hx hy
    obtain ⟨i, hi, hxn, hxc⟩ := Generator.created_mem ops g fa alloc d x hx
    obtain ⟨j, hj, hyn, hyc⟩ :=
      Generator.created_mem ops (Generator.run ops g fa alloc d).self fa alloc2 d2 y hy
    rw [hname, hcount2] at hyn
    rw [hcount2] at hyc
    have hmin2 : INT_MIN ≤ g.count + firstNegative ops d := by
      have : (0 : Int) ≤ (firstNegative ops d : Int) := Int.ofNat_nonneg _
      omega
    have hjl : (j : Int) + 1 ≤ (firstNegative ops d2 : Int) := by exact_mod_cast hj
    rw [hit i (by omega)] at hxn
    rw [hit (i + 1) (by omega)] at hxc
    rw [nextCount_iterate _ j hmin2 (by omega)] at hyn
    rw [nextCount_iterate _ (j + 1) hmin2 (by push_cast; omega)] at hyc
    have hil : (i : Int) + 1 ≤ (firstNegative ops d : Int) := by exact_mod_cast hi
    refine ⟨?_, by rw [hxc, hyc]; push_cast; omega⟩
    rw [hxn, hyn]
    intro h
    have := name_append_injective g.name _ _ h
    omega

/-- C16 at a generator named "gen" with counter 3 sampling `[2, 3, -1]` whose
entry activity has priority 0: the second arrival is "gen4", constructed with
counter value 5 and scheduled at delay 5 with priority 5; the counter ends at 5. -/
theorem C16_names_and_priorities_witness :
    (Generator.run exactOps (exampleGenerator 3) 0 (fun i => 100 + i) [2, 3, -1]).self.count
      = 5 ∧
    ∃ x, (Generator.run exactOps (exampleGenerator 3) 0 (fun i => 100 + i)
        [2, 3, -1]).created[1]? = some x ∧
      x.name = "gen4" ∧ x.count = 5 ∧
      (Generator.run exactOps (exampleGenerator 3) 0 (fun i => 100 + i) [2, 3, -1]).calls[3]? =
        some (GenCall.schedule 5 x.ref x.count) := by
  obtain ⟨h1, h2, -⟩ :=
    C16_names_and_priorities exactOps (exampleGenerator 3) 0 (fun i => 100 + i) [2, 3, -1]
      (by decide) (by decide)
  obtain ⟨x, hx, hn, hc, hs⟩ := h2 1 (by decide)
  refine ⟨h1.trans (by decide), x, hx, hn.trans (by decide), hc.trans (by decide), ?_⟩
  rw [hs]
  simp
  decide

/-! ### The flag `active` and the outstanding event, the other operations -/

theorem outstanding_arrivalCalls (who : Ref) (fa : Int) (alloc : Nat → Ref) (ds : List Time)
    (i : Nat) (delay : Time) (count : Int) (k : Nat) (before : Bool) (h : ∀ j, alloc j ≠ who) :
    outstanding who before
      ((Generator.arrivalCalls exactOps fa alloc ds i delay count k).map GenCall.toCall) =
      before := by
  induction k with
  | zero => simp [Generator.arrivalCalls, outstanding]
  | succ k ih =>
    rw [Generator.arrivalCalls_succ, List.map_append, outstanding_append, ih]
    simp [outstanding, h, GenCall.toCall]

/-- The operations other than the stopping `Manager::run` keep "`active` is
true exactly when an event is outstanding": `activate`; `deactivate` (for a
process that satisfies it before); `Generator::run` after its event fired (the
handles of the new arrivals differ from the generator's); a `Manager::run`
that does not stop; `Arrival::run` with a non-null activity after its event
fired; `restart`; `interrupt` (for an arrival that satisfies it before). -/
theorem active_invariant_elsewhere :
    (∀ (p : Process) (d : Time) (before : Bool),
      outstanding p.id before (p.activate d).calls = (p.activate d).self.active) ∧
    (∀ p : Process, outstanding p.id p.active p.deactivate.calls = p.deactivate.self.active) ∧
    (∀ (g : Generator) (fa : Int) (alloc : Nat → Ref) (d : List Time),
      (∀ j, alloc j ≠ g.id) →
      outstanding g.id false ((Generator.run exactOps g fa alloc d).calls.map GenCall.toCall) =
        (Generator.run exactOps g fa alloc d).self.active) ∧
    (∀ (m : Manager) (r : Ret Unit Manager), m.run = some r →
      ¬ (m.index + 1 = m.duration.length ∧ m.period < 0) →
      outstanding m.id false r.calls = r.self.active) ∧
    (∀ (st : Status) (sim : Sim) (a : Arrival) (act : Ref), a.activity = some act →
      outstanding a.id false (Arrival.run st sim a).calls = (Arrival.run st sim a).self.active) ∧
    (∀ (sim : Sim) (a : Arrival) (before : Bool),
      outstanding a.id before (a.restart sim).calls = (a.restart sim).self.active) ∧
    (∀ (sim : Sim) (a : Arrival) (r : Ret Unit Arrival), a.interrupt sim = some r →
      outstanding a.id a.active r.calls = r.self.active) := by
  refine ⟨?_, ?_, ?_, ?_, ?_, ?_, ?_⟩
  · intro p d b
    simp [Process.activate, outstanding]
  · intro p
    cases h : p.active <;> simp [Process.deactivate, outstanding, h]
  · intro g fa alloc d hfresh
    have hle := firstNegative_le exactOps d
    by_cases hk : firstNegative exactOps d < d.length
    · rw [Generator.run_stopped exactOps g fa alloc d hk]
      exact outstanding_arrivalCalls _ _ _ _ _ _ _ _ _ hfresh
    · rw [Generator.run_through exactOps g fa alloc d (by omega)]
      show outstanding g.id false (List.map GenCall.toCall (_ ++ _)) = true
      rw [List.map_append, outstanding_append,
        outstanding_arrivalCalls _ _ _ _ _ _ _ _ _ hfresh]
      simp [outstanding, GenCall.toCall]
  · intro m r hr hstop
    simp only [Manager.run] at hr
    cases hv : m.value[m.index]? with
    | none => simp [hv] at hr
    | some v =>
      simp only [hv] at hr
      by_cases hlast : m.index + 1 = m.duration.length
      · have hp : ¬ m.period < 0 := fun hp => hstop ⟨hlast, hp⟩
        simp only [hlast, if_true, hp, if_false, Manager.activate] at hr
        cases hd : m.duration[1]? with
        | none => simp [hd] at hr
        | some d =>
          simp only [hd, Option.map_some', Option.some.injEq] at hr
          subst hr
          simp [Process.activate, outstanding]
      · simp only [hlast, if_false, Manager.activate] at hr
        cases hd : m.duration[m.index + 1]? with
        | none => simp [hd] at hr
        | some d =>
          simp only [hd, Option.map_some', Option.some.injEq] at hr
          subst hr
          simp [Process.activate, outstanding]
  · intro st sim a act hact
    have hid := Arrival.before_activity_id sim a
    have hoff : (a.before_activity sim).active = false := rfl
    simp only [Arrival.run, hact]
    split_ifs <;>
      simp [outstanding, hid, hoff, Arrival.set_busy, Arrival.update_activity]
  · intro sim a b
    simp [Arrival.restart, Arrival.activate, Process.activate, outstanding, Arrival.set_busy,
      Arrival.set_remaining]
  · intro sim a r hr
    have hd : outstanding a.id a.active (if a.active then [Call.unschedule a.id] else [])
        = false := by
      cases h : a.active <;> simp [outstanding]
    simp only [Arrival.interrupt, Arrival.deactivate_eq] at hr
    by_cases h : a.lifetime.busy_until < sim.now
    · simp only [h, if_true, Option.some.injEq] at hr
      subst hr
      exact hd
    · simp only [h, if_false] at hr
      by_cases hc : (Arrival.unset_busy { a with active := false } sim.now).lifetime.remaining ≠ 0 ∧
          (Arrival.unset_busy { a with active := false } sim.now).order.get_restart = true
      · rw [if_pos hc] at hr
        cases hact : (Arrival.unset_remaining
            (Arrival.unset_busy { a with active := false } sim.now)).activity with
        | none => simp [hact] at hr
        | some act =>
          simp only [hact, Option.some.injEq] at hr
          subst hr
          exact hd
      · rw [if_neg hc] at hr
        simp only [Option.some.injEq] at hr
        subst hr
        exact hd

end Simmer
